import Mathlib

/-!
Verification of the adaptive rendering capability system.

Shallow embedding of:
* `src/unnamed/part_018` (device capability detector),
* `src/components/DeviceContext.tsx` (pixel-ratio snapshot update),
* `src/hooks/usePyodideSolver.ts` (solve request gating),
* `src/unnamed/part_006` (pyodide solver worker, sampling via `np.linspace`),
* `src/unnamed/part_017` (Canvas2DRenderer viewport pan/zoom),
* `src/lib/shader-optimizer.ts` (validateShader / optimizeShader).

Machine numbers (JS doubles) are modelled as exact rationals `ℚ`; strings are
modelled as `List Char`.  Fallible JS code is modelled with `Except`.
-/

set_option maxHeartbeats 1000000
set_option maxRecDepth 8000

/-! ## Device capability detector (`src/unnamed/part_018`) -/

/-- `RenderCapability` enum from the detector. -/
inductive RenderCapability
  | CANVAS_2D_FALLBACK
  | WEBGL_LEGACY
  | WEBGL_2_OPTIMIZED
deriving DecidableEq

/-- `DeviceCapabilities` interface from the detector. -/
structure DeviceCapabilities where
  renderPath : RenderCapability
  webglVersion : Nat
  gpuMemoryMB : Nat
  devicePixelRatio : ℚ
  maxTextureSize : Nat
  estimatedRAM : Nat
  supportsInstancing : Bool
deriving DecidableEq

/-- What the detector reads from a WebGL rendering context:
whether `getExtension WEBGL_debug_renderer_info` is non-null, the
`UNMASKED_RENDERER_WEBGL` parameter (a string or null), the
`MAX_TEXTURE_SIZE` parameter, and whether `getExtension ANGLE_instanced_arrays`
is non-null. -/
structure GLContextState where
  debugRendererInfo : Bool
  unmaskedRenderer : Option (List Char)
  maxTextureSize : Nat
  instancedArraysExt : Bool
deriving DecidableEq

/-- The JS global `window`: undeclared (`typeof window === 'undefined'`),
declared but `null` (a test environment), or a real object carrying
`devicePixelRatio`. -/
inductive WindowState
  | undefinedW
  | nullW
  | objW (devicePixelRatio : ℚ)
deriving DecidableEq

/-- The JS global `document`: undeclared, declared but `null`, or present. -/
inductive DocumentState
  | undefinedD
  | nullD
  | objD
deriving DecidableEq

/-- One host environment: what each probe of the detector would observe.
`webgl2Context` is the result of `canvas.getContext('webgl2')`,
`webglContext` of `canvas.getContext('webgl')`, `experimentalWebglContext`
of `canvas.getContext('experimental-webgl')`; `canvas2dContext` tells whether
a 2D context is obtainable, `createImageDataThrows` whether the large
`createImageData` allocation raises, and `imageDataTruthy` whether the
allocation result is truthy. -/
structure BrowserEnv where
  window : WindowState
  document : DocumentState
  webgl2Context : Option GLContextState
  webglContext : Option GLContextState
  experimentalWebglContext : Option GLContextState
  canvas2dContext : Bool
  createImageDataThrows : Bool
  imageDataTruthy : Bool
deriving DecidableEq

def WindowState.isUndefinedW : WindowState → Bool
  | .undefinedW => true
  | _ => false

def WindowState.isNullW : WindowState → Bool
  | .nullW => true
  | _ => false

def DocumentState.isUndefinedD : DocumentState → Bool
  | .undefinedD => true
  | _ => false

def DocumentState.isNullD : DocumentState → Bool
  | .nullD => true
  | _ => false

/-- The two environment guards shared by `testWebGL2Support` and
`testWebGL1Support`: `typeof window === 'undefined' || typeof document ===
'undefined'`, then `!window || !document`. -/
def domGuardFails (env : BrowserEnv) : Bool :=
  env.window.isUndefinedW || env.document.isUndefinedD ||
    env.window.isNullW || env.document.isNullD

/-- `testWebGL2Support` : the obtained WebGL2 context, if any. -/
def testWebGL2Support (env : BrowserEnv) : Option GLContextState :=
  if domGuardFails env then none else env.webgl2Context

/-- `testWebGL1Support` : `getContext('webgl') || getContext('experimental-webgl')`. -/
def testWebGL1Support (env : BrowserEnv) : Option GLContextState :=
  if domGuardFails env then none
  else env.webglContext.orElse fun _ => env.experimentalWebglContext

/-- Case-insensitive `renderer.toLowerCase().includes(needle)` where the
needle is already lower case. -/
def containsSub (needle : List Char) : List Char → Bool
  | [] => needle.isEmpty
  | c :: rest => needle.isPrefixOf (c :: rest) || containsSub needle rest

def rendererIncludes (renderer : List Char) (needle : String) : Bool :=
  containsSub needle.data (renderer.map Char.toLower)

/-- `getGPUMemory` from the detector: heuristic renderer-string match. -/
def getGPUMemory : Option GLContextState → Nat
  | none => 0
  | some gl =>
    if !gl.debugRendererInfo then 512
    else
      match gl.unmaskedRenderer with
      | none => 512
      | some renderer =>
        if rendererIncludes renderer "mali" || rendererIncludes renderer "adreno" then 1024
        else if rendererIncludes renderer "powervr" then 512
        else if rendererIncludes renderer "nvidia" || rendererIncludes renderer "geforce" then 4096
        else if rendererIncludes renderer "radeon" || rendererIncludes renderer "amd" then 4096
        else 2048

/-- `getMaxTextureSize`. -/
def getMaxTextureSize : Option GLContextState → Nat
  | none => 0
  | some gl => gl.maxTextureSize

/-- `estimateDeviceRAM`: the canvas allocation probe.  The whole body after
the `typeof` guard sits in a `try` whose `catch` returns 512, so a `null`
`document` (whose `createElement` access raises) yields 512. -/
def estimateDeviceRAM (env : BrowserEnv) : Nat :=
  if env.window.isUndefinedW || env.document.isUndefinedD then 2048
  else if env.document.isNullD then 512
  else if !env.canvas2dContext then 2048
  else if env.createImageDataThrows then 512
  else if env.imageDataTruthy then 2048 else 512

/-- The expression `typeof window !== 'undefined' ? window.devicePixelRatio : 1`.
When `window` is declared but `null`, the property read raises a `TypeError`. -/
def dprRead (env : BrowserEnv) : Except String ℚ :=
  match env.window with
  | .undefinedW => .ok 1
  | .nullW => .error "TypeError: cannot read devicePixelRatio of null"
  | .objW d => .ok d

/-- `detectDeviceCapabilities`, with the possibility of a raised exception
made explicit in `Except`. -/
def detectDeviceCapabilities (env : BrowserEnv) : Except String DeviceCapabilities :=
  match testWebGL2Support env with
  | some gl =>
    (dprRead env).map fun dpr =>
      { renderPath := .WEBGL_2_OPTIMIZED
        webglVersion := 2
        gpuMemoryMB := getGPUMemory (some gl)
        devicePixelRatio := dpr
        maxTextureSize := getMaxTextureSize (some gl)
        estimatedRAM := estimateDeviceRAM env
        supportsInstancing := true }
  | none =>
    match testWebGL1Support env with
    | some gl =>
      (dprRead env).map fun dpr =>
        { renderPath := .WEBGL_LEGACY
          webglVersion := 1
          gpuMemoryMB := getGPUMemory (some gl)
          devicePixelRatio := dpr
          maxTextureSize := getMaxTextureSize (some gl)
          estimatedRAM := estimateDeviceRAM env
          supportsInstancing := gl.instancedArraysExt }
    | none =>
      (dprRead env).map fun dpr =>
        { renderPath := .CANVAS_2D_FALLBACK
          webglVersion := 0
          gpuMemoryMB := 0
          devicePixelRatio := dpr
          maxTextureSize := 0
          estimatedRAM := estimateDeviceRAM env
          supportsInstancing := false }

/-- A test-style environment where `window` is declared but `null` and no
graphics context is obtainable. -/
def nullWindowEnv : BrowserEnv :=
  { window := .nullW
    document := .objD
    webgl2Context := none
    webglContext := none
    experimentalWebglContext := none
    canvas2dContext := true
    createImageDataThrows := false
    imageDataTruthy := true }

/-- A server-side environment: `window` and `document` undeclared. -/
def ssrEnv : BrowserEnv :=
  { window := .undefinedW
    document := .undefinedD
    webgl2Context := none
    webglContext := none
    experimentalWebglContext := none
    canvas2dContext := false
    createImageDataThrows := false
    imageDataTruthy := false }

/-- C1.  The detector is *not* exception-free on every environment: with
`window` declared but `null` (the test-environment shape its own guards
mention) every probe fails, and the final fallback object evaluates
`window.devicePixelRatio` behind a `typeof`-only guard, raising a
`TypeError`.  On every environment where it does return, the returned
snapshot satisfies `renderPath == CANVAS_2D_FALLBACK ↔ webglVersion == 0`. -/
theorem detect_null_window_raises_and_fallback_iff :
    (∃ e, detectDeviceCapabilities nullWindowEnv = .error e) ∧
    (∀ (env : BrowserEnv) (cap : DeviceCapabilities),
      detectDeviceCapabilities env = .ok cap →
      (cap.renderPath = RenderCapability.CANVAS_2D_FALLBACK ↔ cap.webglVersion = 0)) := by
  constructor
  · exact ⟨_, rfl⟩
  · intro env cap h
    unfold detectDeviceCapabilities at h
    cases hgl2 : testWebGL2Support env with
    | some gl =>
      rw [hgl2] at h
      cases hd : dprRead env with
      | error e => rw [hd] at h; simp [Except.map] at h
      | ok d =>
        rw [hd] at h
        simp only [Except.map, Except.ok.injEq] at h
        subst h
        simp
    | none =>
      rw [hgl2] at h
      cases hgl1 : testWebGL1Support env with
      | some gl =>
        rw [hgl1] at h
        cases hd : dprRead env with
        | error e => rw [hd] at h; simp [Except.map] at h
        | ok d =>
          rw [hd] at h
          simp only [Except.map, Except.ok.injEq] at h
          subst h
          simp
      | none =>
        rw [hgl1] at h
        cases hd : dprRead env with
        | error e => rw [hd] at h; simp [Except.map] at h
        | ok d =>
          rw [hd] at h
          simp only [Except.map, Except.ok.injEq] at h
          subst h
          simp

/-- Witness for C1: on the server-side environment the detector returns a
snapshot, and the iff holds there. -/
theorem detect_null_window_raises_and_fallback_iff_witness :
    ∃ cap, detectDeviceCapabilities ssrEnv = .ok cap ∧
      (cap.renderPath = RenderCapability.CANVAS_2D_FALLBACK ↔ cap.webglVersion = 0) := by
  refine ⟨_, rfl, ?_⟩
  exact detect_null_window_raises_and_fallback_iff.2 ssrEnv _ rfl

/-- C10.  `getGPUMemory`: a present debug-renderer-info extension whose
unmasked renderer string is null yields the conservative 512, not the 2048
integrated/unknown default; an absent extension also yields 512. -/
theorem getGPUMemory_null_renderer_conservative :
    (∀ gl : GLContextState, gl.debugRendererInfo = true → gl.unmaskedRenderer = none →
      getGPUMemory (some gl) = 512 ∧ getGPUMemory (some gl) ≠ 2048) ∧
    (∀ gl : GLContextState, gl.debugRendererInfo = false →
      getGPUMemory (some gl) = 512) := by
  constructor
  · intro gl hdbg hrend
    simp [getGPUMemory, hdbg, hrend]
  · intro gl hdbg
    simp [getGPUMemory, hdbg]

/-- Witness for C10 at a concrete context value. -/
theorem getGPUMemory_null_renderer_conservative_witness :
    getGPUMemory (some ⟨true, none, 4096, false⟩) = 512 ∧
    getGPUMemory (some ⟨false, some ['n'], 4096, false⟩) = 512 :=
  ⟨(getGPUMemory_null_renderer_conservative.1 ⟨true, none, 4096, false⟩ rfl rfl).1,
   getGPUMemory_null_renderer_conservative.2 ⟨false, some ['n'], 4096, false⟩ rfl⟩

/-! ## Capability context (`src/components/DeviceContext.tsx`) -/

/-- The pixel-ratio listener callback of `DeviceProvider`:
`setCapabilities(prev => prev ? { ...prev, devicePixelRatio } : prev)`.
It rebuilds the snapshot from the previous one; `detectDeviceCapabilities`
is not consulted. -/
def applyPixelRatioChange (prev : Option DeviceCapabilities) (newRatio : ℚ) :
    Option DeviceCapabilities :=
  match prev with
  | none => none
  | some caps => some { caps with devicePixelRatio := newRatio }

/-- C9.  On a device-pixel-ratio change the provider publishes a snapshot in
which only `devicePixelRatio` differs: every other field is unchanged.  The
update is a record copy of the previous snapshot — by definition it does not
invoke `detectDeviceCapabilities`, so the context-creation probe is not
re-run. -/
theorem pixel_ratio_change_updates_only_dpr :
    ∀ (caps : DeviceCapabilities) (newRatio : ℚ),
      ∃ caps', applyPixelRatioChange (some caps) newRatio = some caps' ∧
        caps'.devicePixelRatio = newRatio ∧
        caps'.renderPath = caps.renderPath ∧
        caps'.webglVersion = caps.webglVersion ∧
        caps'.gpuMemoryMB = caps.gpuMemoryMB ∧
        caps'.maxTextureSize = caps.maxTextureSize ∧
        caps'.estimatedRAM = caps.estimatedRAM ∧
        caps'.supportsInstancing = caps.supportsInstancing := by
  intro caps newRatio
  exact ⟨_, rfl, rfl, rfl, rfl, rfl, rfl, rfl, rfl⟩

/-! ## Solve request gating (`src/hooks/usePyodideSolver.ts`) -/

/-- A `Solve` request as posted to the worker. -/
structure SolveRequest where
  equation : List Char
  varName : List Char
  xMin : ℚ
  xMax : ℚ
  numPoints : Nat
deriving DecidableEq

/-- The part of the hook state that `solve` consults: whether
`workerRef.current` is non-null and whether the `ready` message arrived. -/
structure SolverHookState where
  workerAlive : Bool
  isReady : Bool
deriving DecidableEq

/-- Immediate outcome of a `solve` call: a locally rejected promise, or a
pending promise awaiting the worker's response. -/
inductive SolveCallOutcome
  | rejectedLocal (message : List Char)
  | awaitingResponse
deriving DecidableEq

/-- The `solve` function of the hook: the outcome together with the list of
messages posted to the worker during the call. -/
def solveCall (st : SolverHookState) (req : SolveRequest) :
    SolveCallOutcome × List SolveRequest :=
  if !st.workerAlive || !st.isReady then
    (.rejectedLocal "Solver not ready".data, [])
  else
    (.awaitingResponse, [req])

/-- C8.  A solve call issued while the service is not READY (worker missing
or not yet initialized) is rejected locally with the "not ready" error and
posts nothing to the worker. -/
theorem solve_not_ready_rejected_locally :
    ∀ (st : SolverHookState) (req : SolveRequest),
      st.workerAlive = false ∨ st.isReady = false →
      solveCall st req = (.rejectedLocal "Solver not ready".data, []) := by
  intro st req h
  rcases h with h | h <;> simp [solveCall, h]

/-- Witness for C8 at a concrete not-ready state. -/
theorem solve_not_ready_rejected_locally_witness :
    solveCall ⟨true, false⟩ ⟨['x'], ['x'], -10, 10, 100⟩ =
      (.rejectedLocal "Solver not ready".data, []) :=
  solve_not_ready_rejected_locally ⟨true, false⟩ ⟨['x'], ['x'], -10, 10, 100⟩ (Or.inr rfl)

/-! ## Worker sampling (`src/unnamed/part_006`) -/

/-- `np.linspace xMin xMax numPoints` (endpoint inclusive) as run by the
worker's Python snippet: `numPoints` evenly spaced samples with step
`(xMax - xMin) / (numPoints - 1)`. -/
def linspace (xMin xMax : ℚ) (numPoints : Nat) : List ℚ :=
  if numPoints = 0 then []
  else if numPoints = 1 then [xMin]
  else (List.range numPoints).map fun i : Nat => xMin + (i : ℚ) * ((xMax - xMin) / ((numPoints : ℚ) - 1))

/-- `solveEquation` of the worker: `x_vals = np.linspace(xMin, xMax, numPoints)`,
`y_vals = f(x_vals)` where `f` is the function lambdified from the parsed
equation (abstracted here as `f : ℚ → ℚ`). -/
def solveEquation (f : ℚ → ℚ) (xMin xMax : ℚ) (numPoints : Nat) : List ℚ × List ℚ :=
  let xs := linspace xMin xMax numPoints
  (xs, xs.map f)

theorem linspace_length (a b : ℚ) (n : Nat) :
    (linspace a b n).length = n := by
  unfold linspace
  by_cases h0 : n = 0
  · simp [h0]
  · by_cases h1 : n = 1
    · simp [h0, h1]
    · rw [if_neg h0, if_neg h1, List.length_map, List.length_range]

theorem linspace_get? (a b : ℚ) (n : Nat) (hn : 2 ≤ n) :
    ∀ i : Nat, i < n →
      (linspace a b n).get? i = some (a + i * ((b - a) / ((n : ℚ) - 1))) := by
  intro i hi
  unfold linspace
  have h0 : n ≠ 0 := by omega
  have h1 : n ≠ 1 := by omega
  rw [if_neg h0, if_neg h1, List.get?_eq_getElem?, List.getElem?_map,
    List.getElem?_range hi]
  rfl

/-- C2.  Successful solves sample `numPoints` evenly spaced points across
`[xMin, xMax]`, endpoints included, and return equal-length arrays; in
particular `solve("x**2", "x", -10, 10, 100)` yields 100-element arrays with
first x-value −10 and last x-value 10 (exactly, in exact arithmetic). -/
theorem solveEquation_linspace_sampling :
    (∀ (f : ℚ → ℚ) (a b : ℚ) (n : Nat), 2 ≤ n →
      (solveEquation f a b n).1.length = n ∧
      (solveEquation f a b n).2.length = n ∧
      (∀ i : Nat, i < n →
        (solveEquation f a b n).1.get? i = some (a + i * ((b - a) / ((n : ℚ) - 1)))) ∧
      (solveEquation f a b n).1.get? 0 = some a ∧
      (solveEquation f a b n).1.get? (n - 1) = some b) ∧
    ((solveEquation (fun x => x ^ 2) (-10) 10 100).1.length = 100 ∧
      (solveEquation (fun x => x ^ 2) (-10) 10 100).2.length = 100 ∧
      (solveEquation (fun x => x ^ 2) (-10) 10 100).1.get? 0 = some (-10) ∧
      (solveEquation (fun x => x ^ 2) (-10) 10 100).1.get? 99 = some 10) := by
  have main : ∀ (f : ℚ → ℚ) (a b : ℚ) (n : Nat), 2 ≤ n →
      (solveEquation f a b n).1.length = n ∧
      (solveEquation f a b n).2.length = n ∧
      (∀ i : Nat, i < n →
        (solveEquation f a b n).1.get? i = some (a + i * ((b - a) / ((n : ℚ) - 1)))) ∧
      (solveEquation f a b n).1.get? 0 = some a ∧
      (solveEquation f a b n).1.get? (n - 1) = some b := by
    intro f a b n hn
    have hlen : (solveEquation f a b n).1.length = n := linspace_length a b n
    have hget : ∀ i : Nat, i < n →
        (solveEquation f a b n).1.get? i = some (a + i * ((b - a) / ((n : ℚ) - 1))) :=
      linspace_get? a b n hn
    refine ⟨hlen, ?_, hget, ?_, ?_⟩
    · show ((linspace a b n).map f).length = n
      simp [linspace_length]
    · rw [hget 0 (by omega)]
      norm_num
    · rw [hget (n - 1) (by omega)]
      have hcast : ((n - 1 : Nat) : ℚ) = (n : ℚ) - 1 := by
        have : (1 : Nat) ≤ n := by omega
        push_cast [this]
        ring
      have hne : ((n : ℚ) - 1) ≠ 0 := by
        have : (2 : ℚ) ≤ (n : ℚ) := by exact_mod_cast hn
        linarith
      rw [hcast]
      congr 1
      field_simp
  refine ⟨main, ?_, ?_, ?_, ?_⟩
  · exact (main (fun x => x ^ 2) (-10) 10 100 (by norm_num)).1
  · exact (main (fun x => x ^ 2) (-10) 10 100 (by norm_num)).2.1
  · exact (main (fun x => x ^ 2) (-10) 10 100 (by norm_num)).2.2.2.1
  · have h := (main (fun x => x ^ 2) (-10) 10 100 (by norm_num)).2.2.2.2
    norm_num at h
    exact h

/-- Witness for C2 at a concrete request. -/
theorem solveEquation_linspace_sampling_witness :
    (solveEquation (fun x => x) 0 1 2).1.length = 2 :=
  (solveEquation_linspace_sampling.1 (fun x => x) 0 1 2 (by norm_num)).1

/-! ## Canvas2DRenderer viewport (`src/unnamed/part_017`) -/

/-- Viewport state of the 2D fallback renderer. -/
structure ViewportState where
  xMin : ℚ
  xMax : ℚ
  yMin : ℚ
  yMax : ℚ
  panStartX : ℚ
  panStartY : ℚ
  isPanning : Bool
deriving DecidableEq

/-- `handleMouseDown`. -/
def handleMouseDown (v : ViewportState) (clientX clientY : ℚ) : ViewportState :=
  { v with isPanning := true, panStartX := clientX, panStartY := clientY }

/-- `handleMouseMove`: pans plot-space bounds by the pointer delta scaled by
range over canvas size. -/
def handleMouseMove (v : ViewportState) (clientX clientY width height : ℚ) : ViewportState :=
  if !v.isPanning then v
  else
    let dx := clientX - v.panStartX
    let dy := clientY - v.panStartY
    let xRange := v.xMax - v.xMin
    let yRange := v.yMax - v.yMin
    let xShift := -(dx / width) * xRange
    let yShift := (dy / height) * yRange
    { v with
      xMin := v.xMin + xShift
      xMax := v.xMax + xShift
      yMin := v.yMin + yShift
      yMax := v.yMax + yShift
      panStartX := clientX
      panStartY := clientY }

/-- `handleMouseUp`. -/
def handleMouseUp (v : ViewportState) : ViewportState :=
  { v with isPanning := false }

/-- `handleWheel`: scales both ranges about their centers by `1.1`
(`deltaY > 0`, zoom out) or `0.9` (otherwise, zoom in).  The JS doubles
`1.1` and `0.9` are modelled by the exact rationals `11/10` and `9/10`. -/
def handleWheel (v : ViewportState) (deltaY : ℚ) : ViewportState :=
  let zoomFactor : ℚ := if deltaY > 0 then 11 / 10 else 9 / 10
  let xRange := v.xMax - v.xMin
  let yRange := v.yMax - v.yMin
  let xCenter := (v.xMin + v.xMax) / 2
  let yCenter := (v.yMin + v.yMax) / 2
  let newXRange := xRange * zoomFactor
  let newYRange := yRange * zoomFactor
  { v with
    xMin := xCenter - newXRange / 2
    xMax := xCenter + newXRange / 2
    yMin := yCenter - newYRange / 2
    yMax := yCenter + newYRange / 2 }

/-- The default viewport of the renderer (`xMin = -10, …`). -/
def initialViewport : ViewportState :=
  { xMin := -10, xMax := 10, yMin := -10, yMax := 10
    panStartX := 0, panStartY := 0, isPanning := false }

/-- C3 counterexample.  A zoom-in (`deltaY = -100`) followed by a zoom-out of
equal magnitude (`deltaY = 100`) does not return the default viewport to its
original bounds: `xMin` moves from −10 to −9.9, an error of 1/10, far beyond
floating-point tolerance (1.1 · 0.9 = 0.99 ≠ 1). -/
theorem wheel_zoom_roundtrip_counterexample :
    (handleWheel (handleWheel initialViewport (-100)) 100).xMin = -(99 / 10) ∧
    ¬ |(handleWheel (handleWheel initialViewport (-100)) 100).xMin -
        initialViewport.xMin| ≤ 1 / 1000000 := by
  have hx : (handleWheel (handleWheel initialViewport (-100)) 100).xMin = -(99 / 10) := by
    norm_num [handleWheel, initialViewport]
  refine ⟨hx, ?_⟩
  have h2 : (-(99 / 10) : ℚ) - initialViewport.xMin = 1 / 10 := by
    norm_num [initialViewport]
  rw [hx, h2, abs_of_pos (by norm_num : (0 : ℚ) < 1 / 10)]
  norm_num

/-- C3 amended.  A wheel zoom-in followed by a wheel zoom-out of equal
magnitude preserves the viewport center but multiplies each range by exactly
99/100 (= 1.1 · 0.9); the bounds therefore do not return to their original
values — each in/out pair shrinks the viewport by 1%. -/
theorem wheel_zoom_roundtrip_scales_ninetynine :
    ∀ (v : ViewportState) (d : ℚ), 0 < d →
      ((handleWheel (handleWheel v (-d)) d).xMax - (handleWheel (handleWheel v (-d)) d).xMin
          = (99 / 100) * (v.xMax - v.xMin)) ∧
      ((handleWheel (handleWheel v (-d)) d).yMax - (handleWheel (handleWheel v (-d)) d).yMin
          = (99 / 100) * (v.yMax - v.yMin)) ∧
      ((handleWheel (handleWheel v (-d)) d).xMin + (handleWheel (handleWheel v (-d)) d).xMax
          = v.xMin + v.xMax) ∧
      ((handleWheel (handleWheel v (-d)) d).yMin + (handleWheel (handleWheel v (-d)) d).yMax
          = v.yMin + v.yMax) := by
  intro v d hd
  have hneg : ¬ (-d > 0) := by linarith
  have hpos : d > 0 := hd
  simp only [handleWheel, hneg, if_false, hpos, if_true]
  refine ⟨by ring, by ring, by ring, by ring⟩

/-- Witness for the amended C3 at the default viewport and `d = 100`. -/
theorem wheel_zoom_roundtrip_scales_ninetynine_witness :
    ((handleWheel (handleWheel initialViewport (-100)) 100).xMax -
        (handleWheel (handleWheel initialViewport (-100)) 100).xMin
      = (99 / 100) * (initialViewport.xMax - initialViewport.xMin)) :=
  (wheel_zoom_roundtrip_scales_ninetynine initialViewport 100 (by norm_num)).1

/-- C4.  Any single pan (pointer move while panning) and any single wheel
zoom applied to a viewport with positive x- and y-ranges yields a viewport
whose ranges are still positive: neither mutation collapses the viewport. -/
theorem pan_zoom_preserve_positive_ranges :
    ∀ v : ViewportState, 0 < v.xMax - v.xMin → 0 < v.yMax - v.yMin →
      (∀ clientX clientY width height : ℚ,
        0 < (handleMouseMove v clientX clientY width height).xMax -
              (handleMouseMove v clientX clientY width height).xMin ∧
        0 < (handleMouseMove v clientX clientY width height).yMax -
              (handleMouseMove v clientX clientY width height).yMin) ∧
      (∀ deltaY : ℚ,
        0 < (handleWheel v deltaY).xMax - (handleWheel v deltaY).xMin ∧
        0 < (handleWheel v deltaY).yMax - (handleWheel v deltaY).yMin) := by
  intro v hx hy
  constructor
  · intro clientX clientY width height
    by_cases hp : v.isPanning
    · have hxe : (handleMouseMove v clientX clientY width height).xMax -
          (handleMouseMove v clientX clientY width height).xMin = v.xMax - v.xMin := by
        simp [handleMouseMove, hp]
      have hye : (handleMouseMove v clientX clientY width height).yMax -
          (handleMouseMove v clientX clientY width height).yMin = v.yMax - v.yMin := by
        simp [handleMouseMove, hp]
      constructor
      · rw [hxe]; exact hx
      · rw [hye]; exact hy
    · simp only [Bool.not_eq_true] at hp
      have hid : handleMouseMove v clientX clientY width height = v := by
        simp [handleMouseMove, hp]
      rw [hid]
      exact ⟨hx, hy⟩
  · intro deltaY
    by_cases hdel : deltaY > 0
    · have hxe : (handleWheel v deltaY).xMax - (handleWheel v deltaY).xMin =
          (v.xMax - v.xMin) * (11 / 10) := by
        simp [handleWheel, hdel]
      have hye : (handleWheel v deltaY).yMax - (handleWheel v deltaY).yMin =
          (v.yMax - v.yMin) * (11 / 10) := by
        simp [handleWheel, hdel]
      exact ⟨by rw [hxe]; exact mul_pos hx (by norm_num),
             by rw [hye]; exact mul_pos hy (by norm_num)⟩
    · have hxe : (handleWheel v deltaY).xMax - (handleWheel v deltaY).xMin =
          (v.xMax - v.xMin) * (9 / 10) := by
        simp [handleWheel, hdel]
      have hye : (handleWheel v deltaY).yMax - (handleWheel v deltaY).yMin =
          (v.yMax - v.yMin) * (9 / 10) := by
        simp [handleWheel, hdel]
      exact ⟨by rw [hxe]; exact mul_pos hx (by norm_num),
             by rw [hye]; exact mul_pos hy (by norm_num)⟩

/-- Witness for C4 at the default viewport. -/
theorem pan_zoom_preserve_positive_ranges_witness :
    0 < (handleWheel initialViewport 100).xMax - (handleWheel initialViewport 100).xMin :=
  ((pan_zoom_preserve_positive_ranges initialViewport (by norm_num [initialViewport])
    (by norm_num [initialViewport])).2 100).1

/-! ## Shader validator (`src/lib/shader-optimizer.ts`) -/

/-- JS regex `\s` (ASCII part): space, tab, newline, carriage return,
vertical tab, form feed. -/
def isSpaceChar (c : Char) : Bool :=
  c = ' ' || c = '\t' || c = '\n' || c = '\r' || c = Char.ofNat 11 || c = Char.ofNat 12

/-- JS regex `\w`: ASCII letters, digits, underscore. -/
def isWordChar (c : Char) : Bool :=
  c.isAlphanum || c = '_'

/-- JS regex class `[\d.]`: digits and dot. -/
def isNumChar (c : Char) : Bool :=
  c.isDigit || c = '.'

/-- `\s+lit` matches at the head of `l` (for `lit` starting with a non-space
character, greedy space matching is exact). -/
def spacesThenLit (lit : List Char) (l : List Char) : Bool :=
  match l with
  | [] => false
  | c :: r => isSpaceChar c && lit.isPrefixOf (r.dropWhile isSpaceChar)

/-- `lit1\s+lit2` matches at the head of `l`. -/
def litSpacesLitAt (lit1 lit2 l : List Char) : Bool :=
  lit1.isPrefixOf l && spacesThenLit lit2 (l.drop lit1.length)

/-- `lit1\s+lit2` matches somewhere in `l` (JS `RegExp.test`). -/
def containsLSL (lit1 lit2 : List Char) : List Char → Bool
  | [] => litSpacesLitAt lit1 lit2 []
  | c :: r => litSpacesLitAt lit1 lit2 (c :: r) || containsLSL lit1 lit2 r

/-- `tok\s*\(` matches at the head of `l`. -/
def tokParenAt (tok l : List Char) : Bool :=
  tok.isPrefixOf l &&
    (match (l.drop tok.length).dropWhile isSpaceChar with
     | c :: _ => c = '('
     | [] => false)

/-- Number of matches of `\btok\s*\(` in `l` (JS `match(...).length` with the
global flag; matches of this shape cannot overlap, so counting every
word-boundary position is exact).  `prev` is the character before the current
position, if any. -/
def countTokParenAux (tok : List Char) : Option Char → List Char → Nat
  | _, [] => 0
  | prev, c :: r =>
    (if (match prev with
         | none => true
         | some p => !isWordChar p) && tokParenAt tok (c :: r) then 1 else 0) +
      countTokParenAux tok (some c) r

def countTokParen (tok : List Char) (l : List Char) : Nat :=
  countTokParenAux tok none l

/-- `tok\s*=` matches at the head of `l` (for the `gl_Position\s*=` test). -/
def tokThenEqAt (tok l : List Char) : Bool :=
  tok.isPrefixOf l &&
    (match (l.drop tok.length).dropWhile isSpaceChar with
     | c :: _ => c = '='
     | [] => false)

/-- `tok\s*=` matches somewhere in `l`. -/
def containsTokThenEq (tok : List Char) : List Char → Bool
  | [] => tokThenEqAt tok []
  | c :: r => tokThenEqAt tok (c :: r) || containsTokThenEq tok r

inductive ShaderKind
  | vertex
  | fragment
deriving DecidableEq

def ShaderKind.isFragment : ShaderKind → Bool
  | .fragment => true
  | .vertex => false

def ShaderKind.isVertex : ShaderKind → Bool
  | .fragment => false
  | .vertex => true

/-- `ShaderValidationResult` interface. -/
structure ShaderValidationResult where
  isValid : Bool
  errors : List String
  warnings : List String
deriving DecidableEq

/-- `/precision\s+highp/.test(shaderCode)`. -/
def hasHighp (shaderCode : List Char) : Bool :=
  containsLSL "precision".data "highp".data shaderCode

/-- `/precision\s+mediump/.test(shaderCode)`. -/
def hasMediump (shaderCode : List Char) : Bool :=
  containsLSL "precision".data "mediump".data shaderCode

def missingPrecisionMsg : String :=
  "Missing precision qualifier. Add \"precision highp float;\" or \"precision mediump float;\""

def glPositionMsg : String :=
  "gl_Position calculations require \"precision highp float;\" for accurate rendering on all devices."

def ifWarnMsg (n : Nat) : String :=
  "Found " ++ toString n ++
    " if-statement(s) in fragment shader. Consider using step() or mix() for better mobile performance."

def expensiveWarnMsg (opName : String) (n : Nat) : String :=
  "Multiple " ++ opName ++ " operations in fragment shader (" ++ toString n ++
    " occurrences). Consider pre-computing in vertex shader."

def forWarnMsg (n : Nat) : String :=
  "Found " ++ toString n ++ " for-loop(s). Ensure loop bounds are constants for mobile GPU compatibility."

/-- The expensive-operation warnings of `validateShader` (patterns
`\bpow\s*\(` … with more than two occurrences), in source order. -/
def expensiveOpsWarnings (shaderCode : List Char) : List String :=
  (["pow", "exp", "log", "sin", "cos"].map fun opBase =>
    let n := countTokParen opBase.data shaderCode
    if 2 < n then [expensiveWarnMsg (opBase ++ "()") n] else []).flatten

/-- The `errors` list built by `validateShader`, in push order. -/
def validateErrors (shaderCode : List Char) (kind : ShaderKind) : List String :=
  (if !hasHighp shaderCode && !hasMediump shaderCode then [missingPrecisionMsg] else []) ++
    (if kind.isVertex && containsTokThenEq "gl_Position".data shaderCode &&
        !hasHighp shaderCode then [glPositionMsg] else [])

/-- The `warnings` list built by `validateShader`, in push order. -/
def validateWarnings (shaderCode : List Char) (kind : ShaderKind) : List String :=
  (if kind.isFragment && 0 < countTokParen "if".data shaderCode then
      [ifWarnMsg (countTokParen "if".data shaderCode)] else []) ++
    (if kind.isFragment then expensiveOpsWarnings shaderCode else []) ++
    (if 0 < countTokParen "for".data shaderCode then
      [forWarnMsg (countTokParen "for".data shaderCode)] else [])

/-- `validateShader`. -/
def validateShader (shaderCode : List Char) (kind : ShaderKind) : ShaderValidationResult :=
  { isValid := (validateErrors shaderCode kind).isEmpty
    errors := validateErrors shaderCode kind
    warnings := validateWarnings shaderCode kind }

/-- C7.  On every shader source with no precision qualifier declared
anywhere (neither `precision\s+highp` nor `precision\s+mediump` matches),
`validateShader` reports `isValid = false` and an error string containing
"precision" — for fragment and vertex shaders alike. -/
theorem validateShader_missing_precision_invalid :
    ∀ (shaderCode : List Char) (kind : ShaderKind),
      hasHighp shaderCode = false →
      hasMediump shaderCode = false →
      (validateShader shaderCode kind).isValid = false ∧
      ∃ e ∈ (validateShader shaderCode kind).errors,
        containsSub "precision".data e.data = true := by
  intro shaderCode kind h1 h2
  have herr : ∃ t, validateErrors shaderCode kind = missingPrecisionMsg :: t := by
    refine ⟨(if kind.isVertex && containsTokThenEq "gl_Position".data shaderCode &&
        !hasHighp shaderCode then [glPositionMsg] else []), ?_⟩
    unfold validateErrors
    rw [h1, h2]
    rfl
  obtain ⟨t, ht⟩ := herr
  constructor
  · show (validateErrors shaderCode kind).isEmpty = false
    rw [ht]
    rfl
  · refine ⟨missingPrecisionMsg, ?_, by decide⟩
    show missingPrecisionMsg ∈ validateErrors shaderCode kind
    rw [ht]
    exact List.mem_cons_self _ _

/-- Witness for C7 on a concrete precision-free fragment shader. -/
theorem validateShader_missing_precision_invalid_witness :
    (validateShader "void main()".data ShaderKind.fragment).isValid = false ∧
    ∃ e ∈ (validateShader "void main()".data ShaderKind.fragment).errors,
      containsSub "precision".data e.data = true :=
  validateShader_missing_precision_invalid "void main()".data ShaderKind.fragment
    (by decide) (by decide)

/-! ## Shader optimizer (`src/lib/shader-optimizer.ts`, `optimizeShader`)

The conditional-rewrite regex

`if\s*\(\s*(\w+)\s*>\s*([\d.]+)\s*\)\s*(\w+)\s*=\s*([\d.]+)\s*;\s*else\s*\3\s*=\s*([\d.]+)\s*;`

is embedded as a deterministic parser: every character class in the pattern is
disjoint from the delimiter that follows it, so the greedy JS engine never
backtracks and maximal-munch parsing is exact.  Global `String.replace` is the
left-to-right non-overlapping scan `replaceAll`. -/

/-- The five capture groups of the conditional-rewrite regex. -/
structure IfMatch where
  vari : List Char
  thresh : List Char
  target : List Char
  trueVal : List Char
  falseVal : List Char
deriving DecidableEq

/-- Consume one expected character. -/
def expectChar (c : Char) : List Char → Option (List Char)
  | [] => none
  | d :: r => if d = c then some r else none

/-- Consume an expected literal (also used for the `\3` backreference). -/
def expectLit : List Char → List Char → Option (List Char)
  | [], l => some l
  | c :: cs, l =>
    match expectChar c l with
    | none => none
    | some r => expectLit cs r

/-- `\s*`. -/
def skipSpaces (l : List Char) : List Char := l.dropWhile isSpaceChar

/-- One-or-more characters of a class (`\w+` / `[\d.]+`), greedy. -/
def takeClass (p : Char → Bool) (l : List Char) : Option (List Char × List Char) :=
  if l.takeWhile p = [] then none else some (l.takeWhile p, l.dropWhile p)

/-- `\s*;` then accept, packaging the captures. -/
def stFinal (vari thresh target trueVal falseVal : List Char) (l : List Char) :
    Option (IfMatch × List Char) :=
  match expectChar ';' (skipSpaces l) with
  | none => none
  | some r => some (⟨vari, thresh, target, trueVal, falseVal⟩, r)

/-- `\s*([\d.]+)` — group 5. -/
def stFalseVal (vari thresh target trueVal : List Char) (l : List Char) :
    Option (IfMatch × List Char) :=
  match takeClass isNumChar (skipSpaces l) with
  | none => none
  | some (falseVal, r) => stFinal vari thresh target trueVal falseVal r

/-- `\s*=` before group 5. -/
def stEq2 (vari thresh target trueVal : List Char) (l : List Char) :
    Option (IfMatch × List Char) :=
  match expectChar '=' (skipSpaces l) with
  | none => none
  | some r => stFalseVal vari thresh target trueVal r

/-- `\s*\3` — the backreference to group 3. -/
def stRef (vari thresh target trueVal : List Char) (l : List Char) :
    Option (IfMatch × List Char) :=
  match expectLit target (skipSpaces l) with
  | none => none
  | some r => stEq2 vari thresh target trueVal r

/-- `\s*else`. -/
def stElse (vari thresh target trueVal : List Char) (l : List Char) :
    Option (IfMatch × List Char) :=
  match expectLit "else".data (skipSpaces l) with
  | none => none
  | some r => stRef vari thresh target trueVal r

/-- `\s*;` after the then-branch. -/
def stSemi1 (vari thresh target trueVal : List Char) (l : List Char) :
    Option (IfMatch × List Char) :=
  match expectChar ';' (skipSpaces l) with
  | none => none
  | some r => stElse vari thresh target trueVal r

/-- `\s*([\d.]+)` — group 4. -/
def stTrueVal (vari thresh target : List Char) (l : List Char) :
    Option (IfMatch × List Char) :=
  match takeClass isNumChar (skipSpaces l) with
  | none => none
  | some (trueVal, r) => stSemi1 vari thresh target trueVal r

/-- `\s*=` before group 4. -/
def stEq1 (vari thresh target : List Char) (l : List Char) :
    Option (IfMatch × List Char) :=
  match expectChar '=' (skipSpaces l) with
  | none => none
  | some r => stTrueVal vari thresh target r

/-- `\s*(\w+)` — group 3, the assignment target. -/
def stTarget (vari thresh : List Char) (l : List Char) : Option (IfMatch × List Char) :=
  match takeClass isWordChar (skipSpaces l) with
  | none => none
  | some (target, r) => stEq1 vari thresh target r

/-- `\s*\)`. -/
def stRParen (vari thresh : List Char) (l : List Char) : Option (IfMatch × List Char) :=
  match expectChar ')' (skipSpaces l) with
  | none => none
  | some r => stTarget vari thresh r

/-- `\s*([\d.]+)` — group 2, the threshold. -/
def stThresh (vari : List Char) (l : List Char) : Option (IfMatch × List Char) :=
  match takeClass isNumChar (skipSpaces l) with
  | none => none
  | some (thresh, r) => stRParen vari thresh r

/-- `\s*>`. -/
def stGt (vari : List Char) (l : List Char) : Option (IfMatch × List Char) :=
  match expectChar '>' (skipSpaces l) with
  | none => none
  | some r => stThresh vari r

/-- `\s*(\w+)` — group 1, the condition variable. -/
def stVar (l : List Char) : Option (IfMatch × List Char) :=
  match takeClass isWordChar (skipSpaces l) with
  | none => none
  | some (vari, r) => stGt vari r

/-- `\s*\(`. -/
def stLParen (l : List Char) : Option (IfMatch × List Char) :=
  match expectChar '(' (skipSpaces l) with
  | none => none
  | some r => stVar r

/-- The literal `f` of `if` (no spaces between `i` and `f`). -/
def stF (l : List Char) : Option (IfMatch × List Char) :=
  match expectChar 'f' l with
  | none => none
  | some r => stLParen r

/-- Does the conditional-rewrite regex match at the head of `l`?  Returns the
captures and the unconsumed rest. -/
def matchAt (l : List Char) : Option (IfMatch × List Char) :=
  match expectChar 'i' l with
  | none => none
  | some r => stF r

/-- The replacement template
`${target} = mix(${falseVal}, ${trueVal}, step(${threshold}, ${variable}));`. -/
def replacement (m : IfMatch) : List Char :=
  m.target ++ " = mix(".data ++ m.falseVal ++ ", ".data ++ m.trueVal ++
    ", step(".data ++ m.thresh ++ ", ".data ++ m.vari ++ "));".data

/-- Fuelled left-to-right non-overlapping global replace (JS
`String.replace` with the `g` flag); `fuel ≥ length` makes it total. -/
def replaceAllF : Nat → List Char → List Char
  | 0, l => l
  | _ + 1, [] => []
  | fuel + 1, c :: r =>
    match matchAt (c :: r) with
    | some (m, rem) => replacement m ++ replaceAllF fuel rem
    | none => c :: replaceAllF fuel r

/-- Global replace of the conditional pattern. -/
def replaceAll (l : List Char) : List Char := replaceAllF l.length l

/-- Does the conditional pattern match anywhere in `l`? -/
def anyIfMatch : List Char → Bool
  | [] => (matchAt []).isSome
  | c :: r => (matchAt (c :: r)).isSome || anyIfMatch r

/-- `/precision\s+(highp|mediump)/.test(shaderCode)`. -/
def hasPrecisionQual (l : List Char) : Bool := hasHighp l || hasMediump l

/-- The prepended precision declaration (`highp` for vertex, `mediump` for
fragment). -/
def precisionHeader : ShaderKind → List Char
  | .vertex => "precision highp float;\n\n".data
  | .fragment => "precision mediump float;\n\n".data

/-- `optimizeShader`: prepend a precision qualifier when none is present,
then apply the conditional-to-`mix`/`step` rewrite. -/
def optimizeShader (shaderCode : List Char) (kind : ShaderKind) : List Char :=
  replaceAll (if hasPrecisionQual shaderCode then shaderCode
              else precisionHeader kind ++ shaderCode)

/-! ### Basic properties of the rewrite scanner -/

theorem expectChar_suffix {c : Char} {l r : List Char} (h : expectChar c l = some r) :
    r <:+ l ∧ r.length < l.length := by
  cases l with
  | nil => simp [expectChar] at h
  | cons d l' =>
    by_cases hd : d = c
    · simp only [expectChar, if_pos hd, Option.some.injEq] at h
      subst h
      exact ⟨List.suffix_cons d l', by simp⟩
    · simp [expectChar, hd] at h

theorem skipSpaces_suffix (l : List Char) : skipSpaces l <:+ l :=
  List.dropWhile_suffix isSpaceChar

theorem takeClass_some {p : Char → Bool} {l w r : List Char}
    (h : takeClass p l = some (w, r)) :
    w ≠ [] ∧ (∀ c ∈ w, p c) ∧ l = w ++ r ∧ r <:+ l := by
  unfold takeClass at h
  by_cases hw : l.takeWhile p = []
  · simp [hw] at h
  · simp only [hw, if_false, Option.some.injEq, Prod.mk.injEq] at h
    obtain ⟨rfl, rfl⟩ := h
    exact ⟨hw, fun c hc => List.mem_takeWhile_imp hc,
      (List.takeWhile_append_dropWhile p l).symm, List.dropWhile_suffix p⟩

theorem expectLit_suffix {w l r : List Char} (h : expectLit w l = some r) : r <:+ l := by
  induction w generalizing l with
  | nil => simp only [expectLit, Option.some.injEq] at h; subst h; exact List.suffix_rfl
  | cons c cs ih =>
    unfold expectLit at h
    cases he : expectChar c l with
    | none => rw [he] at h; exact absurd h (by simp)
    | some r1 =>
      rw [he] at h
      exact (ih h).trans (expectChar_suffix he).1

theorem stFinal_rem {v k t tv fv l : List Char} {m : IfMatch} {rem : List Char}
    (h : stFinal v k t tv fv l = some (m, rem)) : rem <:+ l := by
  unfold stFinal at h
  cases he : expectChar ';' (skipSpaces l) with
  | none => rw [he] at h; exact absurd h (by simp)
  | some r =>
    rw [he] at h
    simp only [Option.some.injEq, Prod.mk.injEq] at h
    obtain ⟨-, rfl⟩ := h
    exact (expectChar_suffix he).1.trans (skipSpaces_suffix l)

theorem stFalseVal_rem {v k t tv l : List Char} {m : IfMatch} {rem : List Char}
    (h : stFalseVal v k t tv l = some (m, rem)) : rem <:+ l := by
  unfold stFalseVal at h
  cases hc : takeClass isNumChar (skipSpaces l) with
  | none => rw [hc] at h; exact absurd h (by simp)
  | some pr =>
    obtain ⟨fv, r⟩ := pr
    rw [hc] at h
    exact (stFinal_rem h).trans ((takeClass_some hc).2.2.2.trans (skipSpaces_suffix l))

theorem stEq2_rem {v k t tv l : List Char} {m : IfMatch} {rem : List Char}
    (h : stEq2 v k t tv l = some (m, rem)) : rem <:+ l := by
  unfold stEq2 at h
  cases he : expectChar '=' (skipSpaces l) with
  | none => rw [he] at h; exact absurd h (by simp)
  | some r =>
    rw [he] at h
    exact (stFalseVal_rem h).trans ((expectChar_suffix he).1.trans (skipSpaces_suffix l))

theorem stRef_rem {v k t tv l : List Char} {m : IfMatch} {rem : List Char}
    (h : stRef v k t tv l = some (m, rem)) : rem <:+ l := by
  unfold stRef at h
  cases he : expectLit t (skipSpaces l) with
  | none => rw [he] at h; exact absurd h (by simp)
  | some r =>
    rw [he] at h
    exact (stEq2_rem h).trans ((expectLit_suffix he).trans (skipSpaces_suffix l))

theorem stElse_rem {v k t tv l : List Char} {m : IfMatch} {rem : List Char}
    (h : stElse v k t tv l = some (m, rem)) : rem <:+ l := by
  unfold stElse at h
  cases he : expectLit "else".data (skipSpaces l) with
  | none => rw [he] at h; exact absurd h (by simp)
  | some r =>
    rw [he] at h
    exact (stRef_rem h).trans ((expectLit_suffix he).trans (skipSpaces_suffix l))

theorem stSemi1_rem {v k t tv l : List Char} {m : IfMatch} {rem : List Char}
    (h : stSemi1 v k t tv l = some (m, rem)) : rem <:+ l := by
  unfold stSemi1 at h
  cases he : expectChar ';' (skipSpaces l) with
  | none => rw [he] at h; exact absurd h (by simp)
  | some r =>
    rw [he] at h
    exact (stElse_rem h).trans ((expectChar_suffix he).1.trans (skipSpaces_suffix l))

theorem stTrueVal_rem {v k t l : List Char} {m : IfMatch} {rem : List Char}
    (h : stTrueVal v k t l = some (m, rem)) : rem <:+ l := by
  unfold stTrueVal at h
  cases hc : takeClass isNumChar (skipSpaces l) with
  | none => rw [hc] at h; exact absurd h (by simp)
  | some pr =>
    obtain ⟨tv, r⟩ := pr
    rw [hc] at h
    exact (stSemi1_rem h).trans ((takeClass_some hc).2.2.2.trans (skipSpaces_suffix l))

theorem stEq1_rem {v k t l : List Char} {m : IfMatch} {rem : List Char}
    (h : stEq1 v k t l = some (m, rem)) : rem <:+ l := by
  unfold stEq1 at h
  cases he : expectChar '=' (skipSpaces l) with
  | none => rw [he] at h; exact absurd h (by simp)
  | some r =>
    rw [he] at h
    exact (stTrueVal_rem h).trans ((expectChar_suffix he).1.trans (skipSpaces_suffix l))

theorem stTarget_rem {v k l : List Char} {m : IfMatch} {rem : List Char}
    (h : stTarget v k l = some (m, rem)) : rem <:+ l := by
  unfold stTarget at h
  cases hc : takeClass isWordChar (skipSpaces l) with
  | none => rw [hc] at h; exact absurd h (by simp)
  | some pr =>
    obtain ⟨t, r⟩ := pr
    rw [hc] at h
    exact (stEq1_rem h).trans ((takeClass_some hc).2.2.2.trans (skipSpaces_suffix l))

theorem stRParen_rem {v k l : List Char} {m : IfMatch} {rem : List Char}
    (h : stRParen v k l = some (m, rem)) : rem <:+ l := by
  unfold stRParen at h
  cases he : expectChar ')' (skipSpaces l) with
  | none => rw [he] at h; exact absurd h (by simp)
  | some r =>
    rw [he] at h
    exact (stTarget_rem h).trans ((expectChar_suffix he).1.trans (skipSpaces_suffix l))

theorem stThresh_rem {v l : List Char} {m : IfMatch} {rem : List Char}
    (h : stThresh v l = some (m, rem)) : rem <:+ l := by
  unfold stThresh at h
  cases hc : takeClass isNumChar (skipSpaces l) with
  | none => rw [hc] at h; exact absurd h (by simp)
  | some pr =>
    obtain ⟨k, r⟩ := pr
    rw [hc] at h
    exact (stRParen_rem h).trans ((takeClass_some hc).2.2.2.trans (skipSpaces_suffix l))

theorem stGt_rem {v l : List Char} {m : IfMatch} {rem : List Char}
    (h : stGt v l = some (m, rem)) : rem <:+ l := by
  unfold stGt at h
  cases he : expectChar '>' (skipSpaces l) with
  | none => rw [he] at h; exact absurd h (by simp)
  | some r =>
    rw [he] at h
    exact (stThresh_rem h).trans ((expectChar_suffix he).1.trans (skipSpaces_suffix l))

theorem stVar_rem {l : List Char} {m : IfMatch} {rem : List Char}
    (h : stVar l = some (m, rem)) : rem <:+ l := by
  unfold stVar at h
  cases hc : takeClass isWordChar (skipSpaces l) with
  | none => rw [hc] at h; exact absurd h (by simp)
  | some pr =>
    obtain ⟨v, r⟩ := pr
    rw [hc] at h
    exact (stGt_rem h).trans ((takeClass_some hc).2.2.2.trans (skipSpaces_suffix l))

theorem stLParen_rem {l : List Char} {m : IfMatch} {rem : List Char}
    (h : stLParen l = some (m, rem)) : rem <:+ l := by
  unfold stLParen at h
  cases he : expectChar '(' (skipSpaces l) with
  | none => rw [he] at h; exact absurd h (by simp)
  | some r =>
    rw [he] at h
    exact (stVar_rem h).trans ((expectChar_suffix he).1.trans (skipSpaces_suffix l))

theorem matchAt_nil : matchAt [] = none := rfl

theorem matchAt_cons_ne {c : Char} (l : List Char) (hc : c ≠ 'i') :
    matchAt (c :: l) = none := by
  simp [matchAt, expectChar, hc]

theorem matchAt_i_cons_ne {d : Char} (l : List Char) (hd : d ≠ 'f') :
    matchAt ('i' :: d :: l) = none := by
  simp [matchAt, expectChar, stF, hd]

theorem matchAt_i : ∀ l : List Char, matchAt ('i' :: l) = stF l := by
  intro l
  simp [matchAt, expectChar]

theorem stF_f : ∀ l : List Char, stF ('f' :: l) = stLParen l := by
  intro l
  simp [stF, expectChar]

theorem matchAt_rem_length {l : List Char} {m : IfMatch} {rem : List Char}
    (h : matchAt l = some (m, rem)) : rem.length < l.length := by
  cases l with
  | nil => rw [matchAt_nil] at h; exact absurd h (by simp)
  | cons c l' =>
    by_cases hc : c = 'i'
    · subst hc
      rw [matchAt_i] at h
      cases l' with
      | nil => simp [stF, expectChar] at h
      | cons d l'' =>
        by_cases hd : d = 'f'
        · subst hd
          rw [stF_f] at h
          have := (stLParen_rem h).length_le
          simp only [List.length_cons]
          omega
        · simp [stF, expectChar, hd] at h
    · rw [matchAt_cons_ne _ hc] at h
      exact absurd h (by simp)

theorem replaceAllF_nil : ∀ fuel, replaceAllF fuel [] = [] := by
  intro fuel
  cases fuel <;> rfl

theorem replaceAllF_congr : ∀ f₁ f₂ l, l.length ≤ f₁ → l.length ≤ f₂ →
    replaceAllF f₁ l = replaceAllF f₂ l := by
  intro f₁
  induction f₁ with
  | zero =>
    intro f₂ l h1 _
    have : l = [] := List.length_eq_zero.mp (Nat.le_zero.mp h1)
    subst this
    rw [replaceAllF_nil, replaceAllF_nil]
  | succ f ih =>
    intro f₂ l h1 h2
    cases l with
    | nil => rw [replaceAllF_nil, replaceAllF_nil]
    | cons c r =>
      cases f₂ with
      | zero => simp at h2
      | succ f₂' =>
        simp only [List.length_cons] at h1 h2
        cases hm : matchAt (c :: r) with
        | some pr =>
          obtain ⟨m, rem⟩ := pr
          have hrem : rem.length < r.length + 1 := by
            simpa using matchAt_rem_length hm
          show replaceAllF (f + 1) (c :: r) = replaceAllF (f₂' + 1) (c :: r)
          simp only [replaceAllF, hm]
          rw [ih f₂' rem (by omega) (by omega)]
        | none =>
          show replaceAllF (f + 1) (c :: r) = replaceAllF (f₂' + 1) (c :: r)
          simp only [replaceAllF, hm]
          rw [ih f₂' r (by omega) (by omega)]

theorem replaceAll_nil : replaceAll [] = [] := rfl

theorem replaceAll_cons_none {c : Char} {l : List Char} (h : matchAt (c :: l) = none) :
    replaceAll (c :: l) = c :: replaceAll l := by
  show replaceAllF (l.length + 1) (c :: l) = c :: replaceAll l
  simp only [replaceAllF, h]
  rfl

theorem replaceAll_cons_match {l : List Char} {m : IfMatch} {rem : List Char}
    (h : matchAt l = some (m, rem)) :
    replaceAll l = replacement m ++ replaceAll rem := by
  cases l with
  | nil => rw [matchAt_nil] at h; exact absurd h (by simp)
  | cons c r =>
    show replaceAllF (r.length + 1) (c :: r) = replacement m ++ replaceAll rem
    simp only [replaceAllF, h]
    have hrem : rem.length < r.length + 1 := by simpa using matchAt_rem_length h
    rw [replaceAllF_congr r.length rem.length rem (by omega) (by omega)]
    rfl

/-- If the pattern matches nowhere in `l`, global replace is the identity. -/
theorem replaceAll_of_no_match : ∀ l : List Char, anyIfMatch l = false → replaceAll l = l := by
  intro l
  induction l with
  | nil => intro _; rfl
  | cons c r ih =>
    intro h
    have h1 : matchAt (c :: r) = none := by
      cases hm : matchAt (c :: r) with
      | none => rfl
      | some pr => simp [anyIfMatch, hm] at h
    have h2 : anyIfMatch r = false := by
      rw [anyIfMatch, h1] at h
      simpa using h
    rw [replaceAll_cons_none h1, ih h2]

/-- A conservative syntactic check: no suffix of `u` can begin a pattern
match, whatever text follows `u`. -/
def noIfStart : List Char → Bool
  | [] => true
  | [c] => decide (c ≠ 'i')
  | c :: d :: r => (decide (c ≠ 'i') || decide (d ≠ 'f')) && noIfStart (d :: r)

theorem noIfStart_safe : ∀ u : List Char, noIfStart u = true →
    ∀ y, y ≠ [] → y <:+ u → ∀ t, matchAt (y ++ t) = none := by
  intro u
  induction u with
  | nil =>
    intro _ y hy hsuf _
    exact absurd (List.suffix_nil.mp hsuf) hy
  | cons c u' ih =>
    intro hu y hy hsuf t
    rcases List.suffix_cons_iff.mp hsuf with rfl | hsuf'
    · cases u' with
      | nil =>
        have hc : c ≠ 'i' := of_decide_eq_true hu
        exact matchAt_cons_ne _ hc
      | cons d r =>
        simp only [noIfStart, Bool.and_eq_true, Bool.or_eq_true, decide_eq_true_eq] at hu
        rcases hu.1 with hc | hd
        · exact matchAt_cons_ne _ hc
        · rcases Decidable.em (c = 'i') with rfl | hc
          · exact matchAt_i_cons_ne _ hd
          · exact matchAt_cons_ne _ hc
    · cases u' with
      | nil => exact absurd (List.suffix_nil.mp hsuf') hy
      | cons d r =>
        simp only [noIfStart, Bool.and_eq_true] at hu
        exact ih hu.2 y hy hsuf' t

/-- Scanning commutes with a prefix none of whose suffixes can start a
match. -/
theorem replaceAll_append_safe : ∀ u s : List Char,
    (∀ y, y ≠ [] → y <:+ u → ∀ t, matchAt (y ++ t) = none) →
    replaceAll (u ++ s) = u ++ replaceAll s := by
  intro u
  induction u with
  | nil => intro s _; rfl
  | cons c u' ih =>
    intro s hsafe
    have hnone : matchAt (c :: (u' ++ s)) = none :=
      hsafe (c :: u') (by simp) List.suffix_rfl s
    rw [List.cons_append, replaceAll_cons_none hnone,
      ih s fun y hy hsuf t => hsafe y hy (hsuf.trans (List.suffix_cons c u')) t]
    rfl

theorem precisionHeader_noIfStart (kind : ShaderKind) :
    noIfStart (precisionHeader kind) = true := by
  cases kind <;> decide

/-- C6.  `optimizeShader` rewrites the spec's example conditional into a
`mix`/`step` expression (the output contains `step` and `mix` and no longer
contains `if (x > 0.5)`), and any source in which the conditional pattern
matches nowhere passes through unmodified except for the possible prepended
precision qualifier. -/
theorem optimizeShader_step_mix_rewrite :
    (optimizeShader "if (x > 0.5) y = 1.0; else y = 0.0;".data ShaderKind.fragment =
        "precision mediump float;\n\ny = mix(0.0, 1.0, step(0.5, x));".data ∧
      containsSub "step".data
        (optimizeShader "if (x > 0.5) y = 1.0; else y = 0.0;".data ShaderKind.fragment) = true ∧
      containsSub "mix".data
        (optimizeShader "if (x > 0.5) y = 1.0; else y = 0.0;".data ShaderKind.fragment) = true ∧
      containsSub "if (x > 0.5)".data
        (optimizeShader "if (x > 0.5) y = 1.0; else y = 0.0;".data ShaderKind.fragment) = false) ∧
    (∀ (s : List Char) (kind : ShaderKind), anyIfMatch s = false →
      optimizeShader s kind =
        if hasPrecisionQual s then s else precisionHeader kind ++ s) := by
  constructor
  · refine ⟨by decide, by decide, by decide, by decide⟩
  · intro s kind h
    unfold optimizeShader
    cases hq : hasPrecisionQual s
    · rw [if_neg (by simp [hq]),
        replaceAll_append_safe _ s (noIfStart_safe _ (precisionHeader_noIfStart kind)),
        replaceAll_of_no_match s h]
    · rw [if_pos (by simp [hq])]
      exact replaceAll_of_no_match s h

/-- Witness for the pass-through part of C6 on a concrete pattern-free
source. -/
theorem optimizeShader_step_mix_rewrite_witness :
    optimizeShader "precision highp float; void main()".data ShaderKind.vertex =
      (if hasPrecisionQual "precision highp float; void main()".data then
        "precision highp float; void main()".data
      else precisionHeader ShaderKind.vertex ++ "precision highp float; void main()".data) :=
  optimizeShader_step_mix_rewrite.2 "precision highp float; void main()".data
    ShaderKind.vertex (by decide)

/-! ### Character-class and block lemmas -/

def wordList (l : List Char) : Prop := ∀ c ∈ l, isWordChar c = true

def numList (l : List Char) : Prop := ∀ c ∈ l, isNumChar c = true

def spaceList (l : List Char) : Prop := ∀ c ∈ l, isSpaceChar c = true

theorem word_not_space {c : Char} (h : isWordChar c = true) : isSpaceChar c = false := by
  by_contra hs
  rw [Bool.not_eq_false] at hs
  simp only [isSpaceChar, Bool.or_eq_true, decide_eq_true_eq] at hs
  rcases hs with ((((rfl | rfl) | rfl) | rfl) | rfl) | rfl <;> exact absurd h (by decide)

theorem space_ne_i {c : Char} (h : isSpaceChar c = true) : c ≠ 'i' := by
  intro he
  subst he
  exact absurd h (by decide)

theorem num_ne_i {c : Char} (h : isNumChar c = true) : c ≠ 'i' := by
  intro he
  subst he
  exact absurd h (by decide)

theorem word_ne_sym {c y : Char} (hc : isWordChar c = true) (hy : isWordChar y = false) :
    c ≠ y := by
  intro he
  rw [he, hy] at hc
  exact absurd hc (by simp)

theorem expectChar_cons_ne {y c : Char} (r : List Char) (h : c ≠ y) :
    expectChar y (c :: r) = none := by
  simp [expectChar, h]

theorem expectChar_cons_eq (c : Char) (r : List Char) : expectChar c (c :: r) = some r := by
  simp [expectChar]

theorem expectChar_decomp {c : Char} {l r : List Char} (h : expectChar c l = some r) :
    l = c :: r := by
  cases l with
  | nil => simp [expectChar] at h
  | cons d l' =>
    by_cases hd : d = c
    · subst hd
      rw [expectChar_cons_eq] at h
      rw [Option.some.injEq] at h
      rw [h]
    · rw [expectChar_cons_ne _ hd] at h
      exact absurd h (by simp)

theorem expectLit_decomp : ∀ {w l r : List Char}, expectLit w l = some r → l = w ++ r := by
  intro w
  induction w with
  | nil =>
    intro l r h
    simpa [expectLit] using h
  | cons c cs ih =>
    intro l r h
    unfold expectLit at h
    cases he : expectChar c l with
    | none => rw [he] at h; exact absurd h (by simp)
    | some r1 =>
      rw [he] at h
      rw [expectChar_decomp he, ih h]
      rfl

theorem expectLit_self (w r : List Char) : expectLit w (w ++ r) = some r := by
  induction w with
  | nil => rfl
  | cons c cs ih => simp [expectLit, expectChar_cons_eq, ih]

theorem skipSpaces_cons_space {c : Char} (l : List Char) (h : isSpaceChar c = true) :
    skipSpaces (c :: l) = skipSpaces l := by
  simp [skipSpaces, List.dropWhile_cons, h]

theorem skipSpaces_cons_nospace {c : Char} (l : List Char) (h : isSpaceChar c = false) :
    skipSpaces (c :: l) = c :: l := by
  simp [skipSpaces, List.dropWhile_cons, h]

theorem skipSpaces_decomp (l : List Char) :
    ∃ sp, spaceList sp ∧ l = sp ++ skipSpaces l :=
  ⟨l.takeWhile isSpaceChar, fun c hc => List.mem_takeWhile_imp hc,
    (List.takeWhile_append_dropWhile isSpaceChar l).symm⟩

theorem takeWhile_append_all {p : Char → Bool} {D : List Char} (l : List Char)
    (h : ∀ c ∈ D, p c = true) : (D ++ l).takeWhile p = D ++ l.takeWhile p := by
  induction D with
  | nil => rfl
  | cons c D' ih =>
    rw [List.cons_append, List.takeWhile_cons_of_pos (h c (by simp)),
      ih fun c hc => h c (by simp [hc])]
    rfl

theorem dropWhile_append_all {p : Char → Bool} {D : List Char} (l : List Char)
    (h : ∀ c ∈ D, p c = true) : (D ++ l).dropWhile p = l.dropWhile p := by
  induction D with
  | nil => rfl
  | cons c D' ih =>
    rw [List.cons_append, List.dropWhile_cons_of_pos (h c (by simp)),
      ih fun c hc => h c (by simp [hc])]

theorem skipSpaces_append_space {sp : List Char} (l : List Char) (h : spaceList sp) :
    skipSpaces (sp ++ l) = skipSpaces l :=
  dropWhile_append_all l h

theorem skipSpaces_word_block {W : List Char} (r : List Char) (hW : W ≠ [])
    (hWw : wordList W) : skipSpaces (W ++ r) = W ++ r := by
  cases W with
  | nil => exact absurd rfl hW
  | cons c W' =>
    rw [List.cons_append, skipSpaces_cons_nospace _ (word_not_space (hWw c (by simp)))]

theorem takeClass_cons_none {p : Char → Bool} {c : Char} (l : List Char) (h : p c = false) :
    takeClass p (c :: l) = none := by
  simp [takeClass, List.takeWhile_cons, h]

theorem takeClass_block {p : Char → Bool} {D : List Char} {d : Char} (r : List Char)
    (hD : D ≠ []) (hDp : ∀ c ∈ D, p c = true) (hd : p d = false) :
    takeClass p (D ++ d :: r) = some (D, d :: r) := by
  have ht : (D ++ d :: r).takeWhile p = D := by
    rw [takeWhile_append_all _ hDp, List.takeWhile_cons, hd]
    simp
  have hdr : (D ++ d :: r).dropWhile p = d :: r := by
    rw [dropWhile_append_all _ hDp, List.dropWhile_cons_of_neg (by simp [hd])]
  unfold takeClass
  rw [ht, hdr, if_neg hD]

theorem dropWhile_head_not {p : Char → Bool} : ∀ {l : List Char} {d : Char} {r : List Char},
    l.dropWhile p = d :: r → p d = false := by
  intro l
  induction l with
  | nil => intro d r h; simp at h
  | cons c l' ih =>
    intro d r h
    by_cases hc : p c
    · rw [List.dropWhile_cons_of_pos hc] at h
      exact ih h
    · rw [List.dropWhile_cons_of_neg hc] at h
      cases h
      simpa using hc

theorem expectLit_word_append {lit : List Char} (hlit : wordList lit) :
    ∀ (W : List Char), wordList W → ∀ {x : Char}, isWordChar x = false → ∀ (X : List Char),
    expectLit lit (W ++ x :: X) = none ∨
      ∃ W₂, W = lit ++ W₂ ∧ expectLit lit (W ++ x :: X) = some (W₂ ++ x :: X) := by
  induction lit with
  | nil =>
    intro W _ x _ X
    exact Or.inr ⟨W, rfl, rfl⟩
  | cons c cs ih =>
    intro W hW x hx X
    cases W with
    | nil =>
      left
      show expectLit (c :: cs) (x :: X) = none
      unfold expectLit
      rw [expectChar_cons_ne _ (Ne.symm (word_ne_sym (hlit c (by simp)) hx))]
    | cons w W' =>
      by_cases hcw : w = c
      · subst hcw
        have step : expectLit (w :: cs) ((w :: W') ++ x :: X) =
            expectLit cs (W' ++ x :: X) := by
          simp [expectLit, expectChar_cons_eq]
        rcases ih (fun d hd => hlit d (by simp [hd])) W' (fun d hd => hW d (by simp [hd]))
            hx X with hnone | ⟨W₂, hW₂, hsome⟩
        · left; rw [step, hnone]
        · right
          exact ⟨W₂, by rw [hW₂]; rfl, by rw [step, hsome]⟩
      · left
        show expectLit (c :: cs) (w :: (W' ++ x :: X)) = none
        unfold expectLit
        rw [expectChar_cons_ne _ hcw]

theorem suffix_append_split {y a b : List Char} (h : y <:+ a ++ b) :
    y <:+ b ∨ ∃ ya, ya ≠ [] ∧ ya <:+ a ∧ y = ya ++ b := by
  induction a with
  | nil => exact Or.inl h
  | cons c a' ih =>
    rw [List.cons_append] at h
    rcases List.suffix_cons_iff.mp h with rfl | h'
    · exact Or.inr ⟨c :: a', by simp, List.suffix_rfl, by simp⟩
    · rcases ih h' with hb | ⟨ya, hne, hsuf, rfl⟩
      · exact Or.inl hb
      · exact Or.inr ⟨ya, hne, hsuf.trans (List.suffix_cons c a'), rfl⟩

theorem suffix_of_suffix_length_le {z w l : List Char} (hz : z <:+ l) (hw : w <:+ l)
    (hlen : z.length ≤ w.length) : z <:+ w := by
  obtain ⟨x, hx⟩ := hz
  obtain ⟨x', hx'⟩ := hw
  have hlx : x.length + z.length = l.length := by rw [← hx]; simp
  have hlx' : x'.length + w.length = l.length := by rw [← hx']; simp
  refine ⟨x.drop x'.length, ?_⟩
  have h1 : l.drop x'.length = x.drop x'.length ++ z := by
    rw [← hx, List.drop_append_of_le_length (by omega)]
  have h2 : l.drop x'.length = w := by rw [← hx']; simp
  rw [← h1]
  exact h2

theorem head_mem_of_suffix {c : Char} {r u : List Char} (h : (c :: r) <:+ u) : c ∈ u := by
  obtain ⟨x, rfl⟩ := h
  simp

/-! ### Stage failure on replacement text

The replacement `T = mix(FV, TV, step(K, V));` begins with the captured
target word followed by `\x20= mix(`; every parser stage, entered at the
start of that text (or mid-token), fails before consuming past `mix(`. -/

/-- Right-associated normal form of `replacement m ++ X`. -/
theorem replacement_append (m : IfMatch) (X : List Char) :
    replacement m ++ X =
      m.target ++ ' ' :: '=' :: ' ' :: 'm' :: 'i' :: 'x' :: '(' ::
        (m.falseVal ++ ',' :: ' ' ::
          (m.trueVal ++ ',' :: ' ' :: 's' :: 't' :: 'e' :: 'p' :: '(' ::
            (m.thresh ++ ',' :: ' ' ::
              (m.vari ++ ')' :: ')' :: ';' :: X)))) := by
  show (m.target ++ " = mix(".data ++ m.falseVal ++ ", ".data ++ m.trueVal ++
    ", step(".data ++ m.thresh ++ ", ".data ++ m.vari ++ "));".data) ++ X = _
  simp only [List.append_assoc]
  rfl

theorem expect_skip_word_fail {y : Char} (hy : isWordChar y = false) {W : List Char}
    (r : List Char) (hW : W ≠ []) (hWw : wordList W) :
    expectChar y (skipSpaces (W ++ r)) = none := by
  rw [skipSpaces_word_block r hW hWw]
  cases W with
  | nil => exact absurd rfl hW
  | cons c W' =>
    rw [List.cons_append]
    exact expectChar_cons_ne _ (word_ne_sym (hWw c (by simp)) hy)

theorem stLParen_word_fail {W : List Char} (r : List Char) (hW : W ≠ [])
    (hWw : wordList W) : stLParen (W ++ r) = none := by
  unfold stLParen
  rw [expect_skip_word_fail (by decide) r hW hWw]

theorem stGt_word_fail (v : List Char) {W : List Char} (r : List Char) (hW : W ≠ [])
    (hWw : wordList W) : stGt v (W ++ r) = none := by
  unfold stGt
  rw [expect_skip_word_fail (by decide) r hW hWw]

theorem stRParen_word_fail (v k : List Char) {W : List Char} (r : List Char) (hW : W ≠ [])
    (hWw : wordList W) : stRParen v k (W ++ r) = none := by
  unfold stRParen
  rw [expect_skip_word_fail (by decide) r hW hWw]

theorem stEq1_word_fail (v k t : List Char) {W : List Char} (r : List Char) (hW : W ≠ [])
    (hWw : wordList W) : stEq1 v k t (W ++ r) = none := by
  unfold stEq1
  rw [expect_skip_word_fail (by decide) r hW hWw]

theorem stSemi1_word_fail (v k t tv : List Char) {W : List Char} (r : List Char)
    (hW : W ≠ []) (hWw : wordList W) : stSemi1 v k t tv (W ++ r) = none := by
  unfold stSemi1
  rw [expect_skip_word_fail (by decide) r hW hWw]

theorem stEq2_word_fail (v k t tv : List Char) {W : List Char} (r : List Char)
    (hW : W ≠ []) (hWw : wordList W) : stEq2 v k t tv (W ++ r) = none := by
  unfold stEq2
  rw [expect_skip_word_fail (by decide) r hW hWw]

theorem stFinal_word_fail (v k t tv fv : List Char) {W : List Char} (r : List Char)
    (hW : W ≠ []) (hWw : wordList W) : stFinal v k t tv fv (W ++ r) = none := by
  unfold stFinal
  rw [expect_skip_word_fail (by decide) r hW hWw]

/-- How `[\d.]+` interacts with a word block followed by `\x20=`: it either
fails outright or stops at a word-but-not-num character or at the space. -/
theorem takeClass_num_word_shape (W : List Char) (hW : W ≠ []) (hWw : wordList W)
    (R : List Char) :
    takeClass isNumChar (W ++ ' ' :: '=' :: R) = none ∨
    ∃ N W₂, takeClass isNumChar (W ++ ' ' :: '=' :: R) = some (N, W₂) ∧
      ((∃ e W₃, W₂ = e :: W₃ ++ ' ' :: '=' :: R ∧ isWordChar e = true ∧
          isNumChar e = false) ∨
        W₂ = ' ' :: '=' :: R) := by
  rcases hsplit : W.dropWhile isNumChar with _ | ⟨e, W₃⟩
  · -- W is all numeric characters
    have hall : W = W.takeWhile isNumChar := by
      conv_lhs => rw [← List.takeWhile_append_dropWhile isNumChar W]
      rw [hsplit, List.append_nil]
    have hWnum : numList W := by
      intro c hc
      rw [hall] at hc
      exact List.mem_takeWhile_imp hc
    right
    exact ⟨W, ' ' :: '=' :: R, takeClass_block _ hW hWnum (by decide), Or.inr rfl⟩
  · have hWdecomp : W = W.takeWhile isNumChar ++ e :: W₃ := by
      conv_lhs => rw [← List.takeWhile_append_dropWhile isNumChar W]
      rw [hsplit]
    have hnume : isNumChar e = false := dropWhile_head_not hsplit
    have hworde : isWordChar e = true := by
      refine hWw e ?_
      rw [hWdecomp]
      simp
    rcases htw : W.takeWhile isNumChar with _ | ⟨n, N'⟩
    · -- head of W is not numeric: takeClass fails
      left
      rw [hWdecomp, htw, List.nil_append, List.cons_append]
      exact takeClass_cons_none _ hnume
    · right
      have hNnum : numList (n :: N') := by
        intro c hc
        rw [← htw] at hc
        exact List.mem_takeWhile_imp hc
      refine ⟨n :: N', e :: (W₃ ++ ' ' :: '=' :: R), ?_, Or.inl ⟨e, W₃, rfl, hworde, hnume⟩⟩
      have : W ++ ' ' :: '=' :: R = (n :: N') ++ e :: (W₃ ++ ' ' :: '=' :: R) := by
        rw [hWdecomp, htw]
        simp
      rw [this]
      exact takeClass_block _ (by simp) hNnum hnume

theorem stThresh_num_fail (v : List Char) {W : List Char} (R : List Char) (hW : W ≠ [])
    (hWw : wordList W) : stThresh v (W ++ ' ' :: '=' :: R) = none := by
  unfold stThresh
  rw [skipSpaces_word_block _ hW hWw]
  rcases takeClass_num_word_shape W hW hWw R with hnone | ⟨N, W₂, hsome, hcase⟩
  · rw [hnone]
  · simp only [hsome]
    rcases hcase with ⟨e, W₃, rfl, hwe, -⟩ | rfl
    · unfold stRParen
      rw [List.cons_append, skipSpaces_cons_nospace _ (word_not_space hwe),
        expectChar_cons_ne _ (word_ne_sym hwe (by decide))]
    · unfold stRParen
      rw [skipSpaces_cons_space _ (by decide), skipSpaces_cons_nospace _ (by decide),
        expectChar_cons_ne _ (by decide)]

theorem stTrueVal_num_fail (v k t : List Char) {W : List Char} (R : List Char) (hW : W ≠ [])
    (hWw : wordList W) : stTrueVal v k t (W ++ ' ' :: '=' :: R) = none := by
  unfold stTrueVal
  rw [skipSpaces_word_block _ hW hWw]
  rcases takeClass_num_word_shape W hW hWw R with hnone | ⟨N, W₂, hsome, hcase⟩
  · rw [hnone]
  · simp only [hsome]
    rcases hcase with ⟨e, W₃, rfl, hwe, -⟩ | rfl
    · unfold stSemi1
      rw [List.cons_append, skipSpaces_cons_nospace _ (word_not_space hwe),
        expectChar_cons_ne _ (word_ne_sym hwe (by decide))]
    · unfold stSemi1
      rw [skipSpaces_cons_space _ (by decide), skipSpaces_cons_nospace _ (by decide),
        expectChar_cons_ne _ (by decide)]

theorem stFalseVal_num_fail (v k t tv : List Char) {W : List Char} (R : List Char)
    (hW : W ≠ []) (hWw : wordList W) : stFalseVal v k t tv (W ++ ' ' :: '=' :: R) = none := by
  unfold stFalseVal
  rw [skipSpaces_word_block _ hW hWw]
  rcases takeClass_num_word_shape W hW hWw R with hnone | ⟨N, W₂, hsome, hcase⟩
  · rw [hnone]
  · simp only [hsome]
    rcases hcase with ⟨e, W₃, rfl, hwe, -⟩ | rfl
    · unfold stFinal
      rw [List.cons_append, skipSpaces_cons_nospace _ (word_not_space hwe),
        expectChar_cons_ne _ (word_ne_sym hwe (by decide))]
    · unfold stFinal
      rw [skipSpaces_cons_space _ (by decide), skipSpaces_cons_nospace _ (by decide),
        expectChar_cons_ne _ (by decide)]

theorem stVar_word_fail {W : List Char} (R : List Char) (hW : W ≠ []) (hWw : wordList W) :
    stVar (W ++ ' ' :: '=' :: R) = none := by
  unfold stVar
  rw [skipSpaces_word_block _ hW hWw]
  simp only [takeClass_block _ hW hWw (by decide : isWordChar ' ' = false)]
  unfold stGt
  rw [skipSpaces_cons_space _ (by decide), skipSpaces_cons_nospace _ (by decide),
    expectChar_cons_ne _ (by decide)]

/-- After an `=`, the text `\x20mix(` kills any numeric-literal expectation. -/
theorem stTrueVal_mix_fail (v k t : List Char) (R : List Char) :
    stTrueVal v k t (' ' :: 'm' :: R) = none := by
  unfold stTrueVal
  rw [skipSpaces_cons_space _ (by decide), skipSpaces_cons_nospace _ (by decide),
    takeClass_cons_none _ (by decide)]

theorem stFalseVal_mix_fail (v k t tv : List Char) (R : List Char) :
    stFalseVal v k t tv (' ' :: 'm' :: R) = none := by
  unfold stFalseVal
  rw [skipSpaces_cons_space _ (by decide), skipSpaces_cons_nospace _ (by decide),
    takeClass_cons_none _ (by decide)]

theorem stTarget_word_fail (v k : List Char) {W : List Char} (R : List Char) (hW : W ≠ [])
    (hWw : wordList W) : stTarget v k (W ++ ' ' :: '=' :: ' ' :: 'm' :: R) = none := by
  unfold stTarget
  rw [skipSpaces_word_block _ hW hWw]
  simp only [takeClass_block _ hW hWw (by decide : isWordChar ' ' = false)]
  unfold stEq1
  rw [skipSpaces_cons_space _ (by decide), skipSpaces_cons_nospace _ (by decide)]
  simp only [expectChar_cons_eq]
  exact stTrueVal_mix_fail v k W R

/-- `stEq2` on a word block (possibly empty) followed by `\x20=\x20mix(`. -/
theorem stEq2_tail_fail (v k t tv : List Char) {W : List Char} (R : List Char)
    (hWw : wordList W) : stEq2 v k t tv (W ++ ' ' :: '=' :: ' ' :: 'm' :: R) = none := by
  cases W with
  | nil =>
    unfold stEq2
    rw [List.nil_append, skipSpaces_cons_space _ (by decide),
      skipSpaces_cons_nospace _ (by decide)]
    simp only [expectChar_cons_eq]
    exact stFalseVal_mix_fail v k t tv R
  | cons e W' =>
    exact stEq2_word_fail v k t tv _ (by simp) hWw

/-- `stRef` on a word block (possibly empty) followed by `\x20=\x20mix(`:
the backreference either mismatches or leads into `stEq2`, which dies at
`mix(`. -/
theorem stRef_tail_fail (v k t tv : List Char) (ht : t ≠ []) (htw : wordList t)
    {W : List Char} (R : List Char) (hWw : wordList W) :
    stRef v k t tv (W ++ ' ' :: '=' :: ' ' :: 'm' :: R) = none := by
  cases W with
  | nil =>
    unfold stRef
    rw [List.nil_append, skipSpaces_cons_space _ (by decide),
      skipSpaces_cons_nospace _ (by decide)]
    cases t with
    | nil => exact absurd rfl ht
    | cons t0 t1 =>
      unfold expectLit
      rw [expectChar_cons_ne _ (Ne.symm (word_ne_sym (htw t0 (by simp)) (by decide)))]
  | cons w W' =>
    unfold stRef
    rw [skipSpaces_word_block _ (by simp) hWw]
    rcases expectLit_word_append htw (w :: W') hWw (by decide : isWordChar ' ' = false)
        ('=' :: ' ' :: 'm' :: R) with hnone | ⟨W₂, hW₂, hsome⟩
    · rw [hnone]
    · simp only [hsome]
      have hW₂w : wordList W₂ := by
        intro c hc
        exact hWw c (by rw [hW₂]; simp [hc])
      exact stEq2_tail_fail v k t tv R hW₂w

theorem wordList_else : wordList "else".data := by
  intro c hc
  have hmem : c ∈ ['e', 'l', 's', 'e'] := hc
  simp only [List.mem_cons, List.not_mem_nil, or_false] at hmem
  rcases hmem with rfl | rfl | rfl | rfl <;> decide

theorem stElse_word_fail (v k t tv : List Char) (ht : t ≠ []) (htw : wordList t)
    {W : List Char} (R : List Char) (hW : W ≠ []) (hWw : wordList W) :
    stElse v k t tv (W ++ ' ' :: '=' :: ' ' :: 'm' :: R) = none := by
  unfold stElse
  rw [skipSpaces_word_block _ hW hWw]
  rcases expectLit_word_append wordList_else W hWw
      (by decide : isWordChar ' ' = false) ('=' :: ' ' :: 'm' :: R) with hnone | ⟨W₂, hW₂, hsome⟩
  · rw [hnone]
  · simp only [hsome]
    have hW₂w : wordList W₂ := by
      intro c hc
      exact hWw c (by rw [hW₂]; simp [hc])
    exact stRef_tail_fail v k t tv ht htw R hW₂w

theorem stF_word_fail {W : List Char} (r : List Char) (hW : W ≠ []) (hWw : wordList W)
    (hp : expectChar '(' (skipSpaces r) = none) : stF (W ++ r) = none := by
  cases W with
  | nil => exact absurd rfl hW
  | cons c W' =>
    by_cases hc : c = 'f'
    · subst hc
      rw [List.cons_append]
      show stF ('f' :: (W' ++ r)) = none
      rw [stF_f]
      cases W' with
      | nil => unfold stLParen; rw [List.nil_append, hp]
      | cons e W'' => exact stLParen_word_fail r (by simp) fun d hd => hWw d (by simp [hd])
    · rw [List.cons_append]
      unfold stF
      rw [expectChar_cons_ne _ hc]

theorem matchAt_word_fail {W : List Char} (r : List Char) (hW : W ≠ []) (hWw : wordList W)
    (hf : expectChar 'f' r = none) (hp : expectChar '(' (skipSpaces r) = none) :
    matchAt (W ++ r) = none := by
  cases W with
  | nil => exact absurd rfl hW
  | cons c W' =>
    by_cases hc : c = 'i'
    · subst hc
      rw [List.cons_append, matchAt_i]
      cases W' with
      | nil =>
        rw [List.nil_append]
        unfold stF
        rw [hf]
      | cons d W'' =>
        exact stF_word_fail r (by simp) (fun e he => hWw e (by simp [he])) hp
    · rw [List.cons_append]
      exact matchAt_cons_ne _ hc

/-! ### Mid-token parser states

A scan that is interrupted inside a `\w+` / `[\d.]+` / literal token is
captured by these functions of the remaining input. -/

def midWordVar (buf l : List Char) : Option (IfMatch × List Char) :=
  stGt (buf ++ l.takeWhile isWordChar) (l.dropWhile isWordChar)

def midWordTarget (v k buf : List Char) (l : List Char) : Option (IfMatch × List Char) :=
  stEq1 v k (buf ++ l.takeWhile isWordChar) (l.dropWhile isWordChar)

def midNumThresh (v buf : List Char) (l : List Char) : Option (IfMatch × List Char) :=
  stRParen v (buf ++ l.takeWhile isNumChar) (l.dropWhile isNumChar)

def midNumTrueVal (v k t buf : List Char) (l : List Char) : Option (IfMatch × List Char) :=
  stSemi1 v k t (buf ++ l.takeWhile isNumChar) (l.dropWhile isNumChar)

def midNumFalseVal (v k t tv buf : List Char) (l : List Char) : Option (IfMatch × List Char) :=
  stFinal v k t tv (buf ++ l.takeWhile isNumChar) (l.dropWhile isNumChar)

def midLitElse (rest v k t tv : List Char) (l : List Char) : Option (IfMatch × List Char) :=
  match expectLit rest l with
  | none => none
  | some r => stRef v k t tv r

def midLitRef (rest v k t tv : List Char) (l : List Char) : Option (IfMatch × List Char) :=
  match expectLit rest l with
  | none => none
  | some r => stEq2 v k t tv r

theorem takeWhile_word_block {W : List Char} (hWw : wordList W) (Z : List Char) :
    (W ++ ' ' :: Z).takeWhile isWordChar = W ∧
    (W ++ ' ' :: Z).dropWhile isWordChar = ' ' :: Z := by
  constructor
  · rw [takeWhile_append_all _ hWw, List.takeWhile_cons_of_neg (by decide)]
    simp
  · rw [dropWhile_append_all _ hWw, List.dropWhile_cons_of_neg (by decide)]

theorem midWordVar_fail (buf : List Char) {W : List Char} (R : List Char)
    (hWw : wordList W) : midWordVar buf (W ++ ' ' :: '=' :: R) = none := by
  unfold midWordVar
  rw [(takeWhile_word_block hWw _).1, (takeWhile_word_block hWw _).2]
  unfold stGt
  rw [skipSpaces_cons_space _ (by decide), skipSpaces_cons_nospace _ (by decide),
    expectChar_cons_ne _ (by decide)]

theorem midWordTarget_fail (v k buf : List Char) {W : List Char} (R : List Char)
    (hWw : wordList W) : midWordTarget v k buf (W ++ ' ' :: '=' :: ' ' :: 'm' :: R) = none := by
  unfold midWordTarget
  rw [(takeWhile_word_block hWw _).1, (takeWhile_word_block hWw _).2]
  unfold stEq1
  rw [skipSpaces_cons_space _ (by decide), skipSpaces_cons_nospace _ (by decide)]
  simp only [expectChar_cons_eq]
  exact stTrueVal_mix_fail v k _ R

theorem takeWhile_num_word_block {W : List Char} (hWw : wordList W) (Z : List Char) :
    (W ++ ' ' :: Z).takeWhile isNumChar = W.takeWhile isNumChar ∧
    (W ++ ' ' :: Z).dropWhile isNumChar = W.dropWhile isNumChar ++ ' ' :: Z := by
  obtain ⟨N, D, hN, hD, hWeq⟩ :
      ∃ N D, N = W.takeWhile isNumChar ∧ D = W.dropWhile isNumChar ∧ W = N ++ D :=
    ⟨_, _, rfl, rfl, (List.takeWhile_append_dropWhile isNumChar W).symm⟩
  have hnum : numList N := by
    intro c hc
    rw [hN] at hc
    exact List.mem_takeWhile_imp hc
  rw [← hN, ← hD, hWeq]
  cases D with
  | nil =>
    constructor
    · rw [List.append_nil, takeWhile_append_all _ hnum,
        List.takeWhile_cons_of_neg (by decide), List.append_nil]
    · rw [List.append_nil, dropWhile_append_all _ hnum,
        List.dropWhile_cons_of_neg (by decide), List.nil_append]
  | cons e D' =>
    have hnume : isNumChar e = false := dropWhile_head_not hD.symm
    constructor
    · rw [List.append_assoc, List.cons_append, takeWhile_append_all _ hnum,
        List.takeWhile_cons_of_neg (by simp [hnume]), List.append_nil]
    · rw [List.append_assoc, List.cons_append, dropWhile_append_all _ hnum,
        List.dropWhile_cons_of_neg (by simp [hnume])]

theorem midNumThresh_fail (v buf : List Char) {W : List Char} (R : List Char)
    (hWw : wordList W) : midNumThresh v buf (W ++ ' ' :: '=' :: R) = none := by
  unfold midNumThresh
  rw [(takeWhile_num_word_block hWw _).1, (takeWhile_num_word_block hWw _).2]
  rcases hd : W.dropWhile isNumChar with _ | ⟨e, W₃⟩
  · rw [List.nil_append]
    unfold stRParen
    rw [skipSpaces_cons_space _ (by decide), skipSpaces_cons_nospace _ (by decide),
      expectChar_cons_ne _ (by decide)]
  · have hWd : wordList (e :: W₃) := by
      intro c hc
      exact hWw c (List.IsSuffix.subset (List.dropWhile_suffix isNumChar)
        (by rw [hd]; exact hc))
    exact stRParen_word_fail v _ (' ' :: '=' :: R) (by simp) hWd

theorem midNumTrueVal_fail (v k t buf : List Char) {W : List Char} (R : List Char)
    (hWw : wordList W) : midNumTrueVal v k t buf (W ++ ' ' :: '=' :: R) = none := by
  unfold midNumTrueVal
  rw [(takeWhile_num_word_block hWw _).1, (takeWhile_num_word_block hWw _).2]
  rcases hd : W.dropWhile isNumChar with _ | ⟨e, W₃⟩
  · rw [List.nil_append]
    unfold stSemi1
    rw [skipSpaces_cons_space _ (by decide), skipSpaces_cons_nospace _ (by decide),
      expectChar_cons_ne _ (by decide)]
  · have hWd : wordList (e :: W₃) := by
      intro c hc
      exact hWw c (List.IsSuffix.subset (List.dropWhile_suffix isNumChar)
        (by rw [hd]; exact hc))
    exact stSemi1_word_fail v k t _ (' ' :: '=' :: R) (by simp) hWd

theorem midNumFalseVal_fail (v k t tv buf : List Char) {W : List Char} (R : List Char)
    (hWw : wordList W) : midNumFalseVal v k t tv buf (W ++ ' ' :: '=' :: R) = none := by
  unfold midNumFalseVal
  rw [(takeWhile_num_word_block hWw _).1, (takeWhile_num_word_block hWw _).2]
  rcases hd : W.dropWhile isNumChar with _ | ⟨e, W₃⟩
  · rw [List.nil_append]
    unfold stFinal
    rw [skipSpaces_cons_space _ (by decide), skipSpaces_cons_nospace _ (by decide),
      expectChar_cons_ne _ (by decide)]
  · have hWd : wordList (e :: W₃) := by
      intro c hc
      exact hWw c (List.IsSuffix.subset (List.dropWhile_suffix isNumChar)
        (by rw [hd]; exact hc))
    exact stFinal_word_fail v k t tv _ (' ' :: '=' :: R) (by simp) hWd

theorem midLitElse_fail (rest v k t tv : List Char) (hrw : wordList rest) (ht : t ≠ [])
    (htw : wordList t) {W : List Char} (R : List Char) (hWw : wordList W) :
    midLitElse rest v k t tv (W ++ ' ' :: '=' :: ' ' :: 'm' :: R) = none := by
  unfold midLitElse
  rcases expectLit_word_append hrw W hWw (by decide : isWordChar ' ' = false)
      ('=' :: ' ' :: 'm' :: R) with hnone | ⟨W₂, hW₂, hsome⟩
  · rw [hnone]
  · simp only [hsome]
    have hW₂w : wordList W₂ := by
      intro c hc
      exact hWw c (by rw [hW₂]; simp [hc])
    exact stRef_tail_fail v k t tv ht htw R hW₂w

theorem midLitRef_fail (rest v k t tv : List Char) (hrw : wordList rest)
    {W : List Char} (R : List Char) (hWw : wordList W) :
    midLitRef rest v k t tv (W ++ ' ' :: '=' :: ' ' :: 'm' :: R) = none := by
  unfold midLitRef
  rcases expectLit_word_append hrw W hWw (by decide : isWordChar ' ' = false)
      ('=' :: ' ' :: 'm' :: R) with hnone | ⟨W₂, hW₂, hsome⟩
  · rw [hnone]
  · simp only [hsome]
    have hW₂w : wordList W₂ := by
      intro c hc
      exact hWw c (by rw [hW₂]; simp [hc])
    exact stEq2_tail_fail v k t tv R hW₂w

/-! ### Captured groups of a successful match are well-formed -/

def ValidCaps (m : IfMatch) : Prop :=
  m.vari ≠ [] ∧ wordList m.vari ∧ m.thresh ≠ [] ∧ numList m.thresh ∧
    m.target ≠ [] ∧ wordList m.target ∧ m.trueVal ≠ [] ∧ numList m.trueVal ∧
    m.falseVal ≠ [] ∧ numList m.falseVal

theorem stFinal_caps {v k t tv fv l : List Char} {m : IfMatch} {rem : List Char}
    (h : stFinal v k t tv fv l = some (m, rem)) : m = ⟨v, k, t, tv, fv⟩ := by
  unfold stFinal at h
  cases he : expectChar ';' (skipSpaces l) with
  | none => rw [he] at h; exact absurd h (by simp)
  | some r =>
    rw [he] at h
    simp only [Option.some.injEq, Prod.mk.injEq] at h
    exact h.1.symm

theorem stFalseVal_caps {v k t tv l : List Char} {m : IfMatch} {rem : List Char}
    (h : stFalseVal v k t tv l = some (m, rem)) :
    ∃ fv, m = ⟨v, k, t, tv, fv⟩ ∧ fv ≠ [] ∧ numList fv := by
  unfold stFalseVal at h
  cases hc : takeClass isNumChar (skipSpaces l) with
  | none => rw [hc] at h; exact absurd h (by simp)
  | some pr =>
    obtain ⟨fv, r⟩ := pr
    rw [hc] at h
    obtain ⟨hne, hnum, -, -⟩ := takeClass_some hc
    exact ⟨fv, stFinal_caps h, hne, hnum⟩

theorem stEq2_caps {v k t tv l : List Char} {m : IfMatch} {rem : List Char}
    (h : stEq2 v k t tv l = some (m, rem)) :
    ∃ fv, m = ⟨v, k, t, tv, fv⟩ ∧ fv ≠ [] ∧ numList fv := by
  unfold stEq2 at h
  cases he : expectChar '=' (skipSpaces l) with
  | none => rw [he] at h; exact absurd h (by simp)
  | some r => rw [he] at h; exact stFalseVal_caps h

theorem stRef_caps {v k t tv l : List Char} {m : IfMatch} {rem : List Char}
    (h : stRef v k t tv l = some (m, rem)) :
    ∃ fv, m = ⟨v, k, t, tv, fv⟩ ∧ fv ≠ [] ∧ numList fv := by
  unfold stRef at h
  cases he : expectLit t (skipSpaces l) with
  | none => rw [he] at h; exact absurd h (by simp)
  | some r => rw [he] at h; exact stEq2_caps h

theorem stElse_caps {v k t tv l : List Char} {m : IfMatch} {rem : List Char}
    (h : stElse v k t tv l = some (m, rem)) :
    ∃ fv, m = ⟨v, k, t, tv, fv⟩ ∧ fv ≠ [] ∧ numList fv := by
  unfold stElse at h
  cases he : expectLit "else".data (skipSpaces l) with
  | none => rw [he] at h; exact absurd h (by simp)
  | some r => rw [he] at h; exact stRef_caps h

theorem stSemi1_caps {v k t tv l : List Char} {m : IfMatch} {rem : List Char}
    (h : stSemi1 v k t tv l = some (m, rem)) :
    ∃ fv, m = ⟨v, k, t, tv, fv⟩ ∧ fv ≠ [] ∧ numList fv := by
  unfold stSemi1 at h
  cases he : expectChar ';' (skipSpaces l) with
  | none => rw [he] at h; exact absurd h (by simp)
  | some r => rw [he] at h; exact stElse_caps h

theorem stTrueVal_caps {v k t l : List Char} {m : IfMatch} {rem : List Char}
    (h : stTrueVal v k t l = some (m, rem)) :
    ∃ tv fv, m = ⟨v, k, t, tv, fv⟩ ∧ tv ≠ [] ∧ numList tv ∧ fv ≠ [] ∧ numList fv := by
  unfold stTrueVal at h
  cases hc : takeClass isNumChar (skipSpaces l) with
  | none => rw [hc] at h; exact absurd h (by simp)
  | some pr =>
    obtain ⟨tv, r⟩ := pr
    rw [hc] at h
    obtain ⟨hne, hnum, -, -⟩ := takeClass_some hc
    obtain ⟨fv, hm, hfne, hfnum⟩ := stSemi1_caps h
    exact ⟨tv, fv, hm, hne, hnum, hfne, hfnum⟩

theorem stEq1_caps {v k t l : List Char} {m : IfMatch} {rem : List Char}
    (h : stEq1 v k t l = some (m, rem)) :
    ∃ tv fv, m = ⟨v, k, t, tv, fv⟩ ∧ tv ≠ [] ∧ numList tv ∧ fv ≠ [] ∧ numList fv := by
  unfold stEq1 at h
  cases he : expectChar '=' (skipSpaces l) with
  | none => rw [he] at h; exact absurd h (by simp)
  | some r => rw [he] at h; exact stTrueVal_caps h

theorem stTarget_caps {v k l : List Char} {m : IfMatch} {rem : List Char}
    (h : stTarget v k l = some (m, rem)) :
    ∃ t tv fv, m = ⟨v, k, t, tv, fv⟩ ∧ t ≠ [] ∧ wordList t ∧ tv ≠ [] ∧ numList tv ∧
      fv ≠ [] ∧ numList fv := by
  unfold stTarget at h
  cases hc : takeClass isWordChar (skipSpaces l) with
  | none => rw [hc] at h; exact absurd h (by simp)
  | some pr =>
    obtain ⟨t, r⟩ := pr
    rw [hc] at h
    obtain ⟨hne, hword, -, -⟩ := takeClass_some hc
    obtain ⟨tv, fv, hm, h1, h2, h3, h4⟩ := stEq1_caps h
    exact ⟨t, tv, fv, hm, hne, hword, h1, h2, h3, h4⟩

theorem stRParen_caps {v k l : List Char} {m : IfMatch} {rem : List Char}
    (h : stRParen v k l = some (m, rem)) :
    ∃ t tv fv, m = ⟨v, k, t, tv, fv⟩ ∧ t ≠ [] ∧ wordList t ∧ tv ≠ [] ∧ numList tv ∧
      fv ≠ [] ∧ numList fv := by
  unfold stRParen at h
  cases he : expectChar ')' (skipSpaces l) with
  | none => rw [he] at h; exact absurd h (by simp)
  | some r => rw [he] at h; exact stTarget_caps h

theorem stThresh_caps {v l : List Char} {m : IfMatch} {rem : List Char}
    (h : stThresh v l = some (m, rem)) :
    ∃ k t tv fv, m = ⟨v, k, t, tv, fv⟩ ∧ k ≠ [] ∧ numList k ∧ t ≠ [] ∧ wordList t ∧
      tv ≠ [] ∧ numList tv ∧ fv ≠ [] ∧ numList fv := by
  unfold stThresh at h
  cases hc : takeClass isNumChar (skipSpaces l) with
  | none => rw [hc] at h; exact absurd h (by simp)
  | some pr =>
    obtain ⟨k, r⟩ := pr
    rw [hc] at h
    obtain ⟨hne, hnum, -, -⟩ := takeClass_some hc
    obtain ⟨t, tv, fv, hm, h1, h2, h3, h4, h5, h6⟩ := stRParen_caps h
    exact ⟨k, t, tv, fv, hm, hne, hnum, h1, h2, h3, h4, h5, h6⟩

theorem stGt_caps {v l : List Char} {m : IfMatch} {rem : List Char}
    (h : stGt v l = some (m, rem)) :
    ∃ k t tv fv, m = ⟨v, k, t, tv, fv⟩ ∧ k ≠ [] ∧ numList k ∧ t ≠ [] ∧ wordList t ∧
      tv ≠ [] ∧ numList tv ∧ fv ≠ [] ∧ numList fv := by
  unfold stGt at h
  cases he : expectChar '>' (skipSpaces l) with
  | none => rw [he] at h; exact absurd h (by simp)
  | some r => rw [he] at h; exact stThresh_caps h

theorem stVar_caps {l : List Char} {m : IfMatch} {rem : List Char}
    (h : stVar l = some (m, rem)) : ValidCaps m := by
  unfold stVar at h
  cases hc : takeClass isWordChar (skipSpaces l) with
  | none => rw [hc] at h; exact absurd h (by simp)
  | some pr =>
    obtain ⟨v, r⟩ := pr
    rw [hc] at h
    obtain ⟨hne, hword, -, -⟩ := takeClass_some hc
    obtain ⟨k, t, tv, fv, hm, h1, h2, h3, h4, h5, h6, h7, h8⟩ := stGt_caps h
    subst hm
    exact ⟨hne, hword, h1, h2, h3, h4, h5, h6, h7, h8⟩

theorem stLParen_caps {l : List Char} {m : IfMatch} {rem : List Char}
    (h : stLParen l = some (m, rem)) : ValidCaps m := by
  unfold stLParen at h
  cases he : expectChar '(' (skipSpaces l) with
  | none => rw [he] at h; exact absurd h (by simp)
  | some r => rw [he] at h; exact stVar_caps h

theorem stF_nil : stF [] = none := rfl

theorem stF_cons_ne {d : Char} (l : List Char) (hd : d ≠ 'f') : stF (d :: l) = none := by
  unfold stF
  rw [expectChar_cons_ne _ hd]

theorem matchAt_caps {l : List Char} {m : IfMatch} {rem : List Char}
    (h : matchAt l = some (m, rem)) : ValidCaps m := by
  cases l with
  | nil => rw [matchAt_nil] at h; exact absurd h (by simp)
  | cons c l' =>
    by_cases hc : c = 'i'
    · subst hc
      rw [matchAt_i] at h
      cases l' with
      | nil => rw [stF_nil] at h; exact absurd h (by simp)
      | cons d l'' =>
        by_cases hd : d = 'f'
        · subst hd
          rw [stF_f] at h
          exact stLParen_caps h
        · rw [stF_cons_ne _ hd] at h
          exact absurd h (by simp)
    · rw [matchAt_cons_ne _ hc] at h
      exact absurd h (by simp)

/-! ### Parser states and single-character stepping -/

theorem num_not_space {c : Char} (h : isNumChar c = true) : isSpaceChar c = false := by
  by_contra hs
  rw [Bool.not_eq_false] at hs
  simp only [isSpaceChar, Bool.or_eq_true, decide_eq_true_eq] at hs
  rcases hs with ((((rfl | rfl) | rfl) | rfl) | rfl) | rfl <;> exact absurd h (by decide)

/-- `\s*` then one expected character, then a continuation. -/
def expectStage (y : Char) (next : List Char → Option (IfMatch × List Char))
    (l : List Char) : Option (IfMatch × List Char) :=
  match expectChar y (skipSpaces l) with
  | none => none
  | some r => next r

/-- `\s*` then a character class, then a continuation taking the capture. -/
def takeStage (p : Char → Bool) (next : List Char → List Char → Option (IfMatch × List Char))
    (l : List Char) : Option (IfMatch × List Char) :=
  match takeClass p (skipSpaces l) with
  | none => none
  | some (w, r) => next w r

/-- Mid-class state: part of the token is in `buf`, the rest is read greedily. -/
def midTake (p : Char → Bool) (next : List Char → List Char → Option (IfMatch × List Char))
    (buf l : List Char) : Option (IfMatch × List Char) :=
  next (buf ++ l.takeWhile p) (l.dropWhile p)

/-- `\s*` then a literal, then a continuation. -/
def litStage (w : List Char) (next : List Char → Option (IfMatch × List Char))
    (l : List Char) : Option (IfMatch × List Char) :=
  match expectLit w (skipSpaces l) with
  | none => none
  | some r => next r

/-- Mid-literal state (no space skipping). -/
def midLit (w : List Char) (next : List Char → Option (IfMatch × List Char))
    (l : List Char) : Option (IfMatch × List Char) :=
  match expectLit w l with
  | none => none
  | some r => next r

theorem stLParen_eq : ∀ l, stLParen l = expectStage '(' stVar l := fun _ => rfl

theorem stGt_eq (v : List Char) : ∀ l, stGt v l = expectStage '>' (stThresh v) l :=
  fun _ => rfl

theorem stRParen_eq (v k : List Char) : ∀ l, stRParen v k l = expectStage ')' (stTarget v k) l :=
  fun _ => rfl

theorem stEq1_eq (v k t : List Char) : ∀ l, stEq1 v k t l = expectStage '=' (stTrueVal v k t) l :=
  fun _ => rfl

theorem stSemi1_eq (v k t tv : List Char) :
    ∀ l, stSemi1 v k t tv l = expectStage ';' (stElse v k t tv) l := fun _ => rfl

theorem stEq2_eq (v k t tv : List Char) :
    ∀ l, stEq2 v k t tv l = expectStage '=' (stFalseVal v k t tv) l := fun _ => rfl

theorem stFinal_eq (v k t tv fv : List Char) :
    ∀ l, stFinal v k t tv fv l =
      expectStage ';' (fun r => some (⟨v, k, t, tv, fv⟩, r)) l := fun _ => rfl

theorem stVar_eq : ∀ l, stVar l = takeStage isWordChar stGt l := fun _ => rfl

theorem stTarget_eq (v k : List Char) :
    ∀ l, stTarget v k l = takeStage isWordChar (stEq1 v k) l := fun _ => rfl

theorem stThresh_eq (v : List Char) :
    ∀ l, stThresh v l = takeStage isNumChar (stRParen v) l := fun _ => rfl

theorem stTrueVal_eq (v k t : List Char) :
    ∀ l, stTrueVal v k t l = takeStage isNumChar (stSemi1 v k t) l := fun _ => rfl

theorem stFalseVal_eq (v k t tv : List Char) :
    ∀ l, stFalseVal v k t tv l = takeStage isNumChar (stFinal v k t tv) l := fun _ => rfl

theorem midWordVar_eq (buf : List Char) :
    ∀ l, midWordVar buf l = midTake isWordChar stGt buf l := fun _ => rfl

theorem midWordTarget_eq (v k buf : List Char) :
    ∀ l, midWordTarget v k buf l = midTake isWordChar (stEq1 v k) buf l := fun _ => rfl

theorem midNumThresh_eq (v buf : List Char) :
    ∀ l, midNumThresh v buf l = midTake isNumChar (stRParen v) buf l := fun _ => rfl

theorem midNumTrueVal_eq (v k t buf : List Char) :
    ∀ l, midNumTrueVal v k t buf l = midTake isNumChar (stSemi1 v k t) buf l := fun _ => rfl

theorem midNumFalseVal_eq (v k t tv buf : List Char) :
    ∀ l, midNumFalseVal v k t tv buf l = midTake isNumChar (stFinal v k t tv) buf l :=
  fun _ => rfl

theorem stElse_eq (v k t tv : List Char) :
    ∀ l, stElse v k t tv l = litStage "else".data (stRef v k t tv) l := fun _ => rfl

theorem stRef_eq (v k t tv : List Char) :
    ∀ l, stRef v k t tv l = litStage t (stEq2 v k t tv) l := fun _ => rfl

theorem midLitElse_eq (rest v k t tv : List Char) :
    ∀ l, midLitElse rest v k t tv l = midLit rest (stRef v k t tv) l := fun _ => rfl

theorem midLitRef_eq (rest v k t tv : List Char) :
    ∀ l, midLitRef rest v k t tv l = midLit rest (stEq2 v k t tv) l := fun _ => rfl

theorem expectStage_cons_space (y : Char) (next : List Char → Option (IfMatch × List Char))
    {c : Char} (A : List Char) (hc : isSpaceChar c = true) :
    expectStage y next (c :: A) = expectStage y next A := by
  unfold expectStage
  rw [skipSpaces_cons_space _ hc]

theorem expectStage_cons_eq (y : Char) (next : List Char → Option (IfMatch × List Char))
    (A : List Char) (hy : isSpaceChar y = false) :
    expectStage y next (y :: A) = next A := by
  unfold expectStage
  rw [skipSpaces_cons_nospace _ hy]
  simp only [expectChar_cons_eq]

theorem expectStage_cons_ne (y : Char) (next : List Char → Option (IfMatch × List Char))
    {c : Char} (A : List Char) (hc1 : isSpaceChar c = false) (hc2 : c ≠ y) :
    expectStage y next (c :: A) = none := by
  unfold expectStage
  rw [skipSpaces_cons_nospace _ hc1, expectChar_cons_ne _ hc2]

theorem takeStage_cons_space (p : Char → Bool)
    (next : List Char → List Char → Option (IfMatch × List Char)) {c : Char} (A : List Char)
    (hc : isSpaceChar c = true) : takeStage p next (c :: A) = takeStage p next A := by
  unfold takeStage
  rw [skipSpaces_cons_space _ hc]

theorem takeStage_cons_pos (p : Char → Bool)
    (next : List Char → List Char → Option (IfMatch × List Char)) {c : Char} (A : List Char)
    (hc1 : isSpaceChar c = false) (hc2 : p c = true) :
    takeStage p next (c :: A) = midTake p next [c] A := by
  unfold takeStage midTake
  rw [skipSpaces_cons_nospace _ hc1]
  unfold takeClass
  rw [List.takeWhile_cons_of_pos hc2, List.dropWhile_cons_of_pos hc2, if_neg (by simp)]
  rfl

theorem takeStage_cons_none (p : Char → Bool)
    (next : List Char → List Char → Option (IfMatch × List Char)) {c : Char} (A : List Char)
    (hc1 : isSpaceChar c = false) (hc2 : p c = false) :
    takeStage p next (c :: A) = none := by
  unfold takeStage
  rw [skipSpaces_cons_nospace _ hc1, takeClass_cons_none _ hc2]

theorem midTake_cons_pos (p : Char → Bool)
    (next : List Char → List Char → Option (IfMatch × List Char)) (buf : List Char)
    {c : Char} (A : List Char) (hc : p c = true) :
    midTake p next buf (c :: A) = midTake p next (buf ++ [c]) A := by
  unfold midTake
  rw [List.takeWhile_cons_of_pos hc, List.dropWhile_cons_of_pos hc, List.append_assoc]
  rfl

theorem midTake_cons_neg (p : Char → Bool)
    (next : List Char → List Char → Option (IfMatch × List Char)) (buf : List Char)
    {c : Char} (A : List Char) (hc : p c = false) :
    midTake p next buf (c :: A) = next buf (c :: A) := by
  unfold midTake
  rw [List.takeWhile_cons_of_neg (by simp [hc]), List.dropWhile_cons_of_neg (by simp [hc]),
    List.append_nil]

theorem litStage_cons_space (w : List Char) (next : List Char → Option (IfMatch × List Char))
    {c : Char} (A : List Char) (hc : isSpaceChar c = true) :
    litStage w next (c :: A) = litStage w next A := by
  unfold litStage
  rw [skipSpaces_cons_space _ hc]

theorem expectLit_cons_eq (w0 : Char) (w A : List Char) :
    expectLit (w0 :: w) (w0 :: A) = expectLit w A := by
  show (match expectChar w0 (w0 :: A) with
    | none => none
    | some r => expectLit w r) = _
  rw [expectChar_cons_eq]

theorem expectLit_cons_ne (w0 : Char) (w : List Char) {c : Char} (A : List Char)
    (hc : c ≠ w0) : expectLit (w0 :: w) (c :: A) = none := by
  show (match expectChar w0 (c :: A) with
    | none => none
    | some r => expectLit w r) = _
  rw [expectChar_cons_ne _ hc]

theorem litStage_cons_eq (w0 : Char) (w : List Char)
    (next : List Char → Option (IfMatch × List Char)) (A : List Char)
    (hw : isSpaceChar w0 = false) :
    litStage (w0 :: w) next (w0 :: A) = midLit w next A := by
  unfold litStage midLit
  rw [skipSpaces_cons_nospace _ hw, expectLit_cons_eq]

theorem litStage_cons_ne (w0 : Char) (w : List Char)
    (next : List Char → Option (IfMatch × List Char)) {c : Char} (A : List Char)
    (hc1 : isSpaceChar c = false) (hc2 : c ≠ w0) :
    litStage (w0 :: w) next (c :: A) = none := by
  unfold litStage
  rw [skipSpaces_cons_nospace _ hc1, expectLit_cons_ne _ _ _ hc2]

theorem midLit_nil (next : List Char → Option (IfMatch × List Char)) (A : List Char) :
    midLit [] next A = next A := rfl

theorem midLit_cons_eq (w0 : Char) (w : List Char)
    (next : List Char → Option (IfMatch × List Char)) (A : List Char) :
    midLit (w0 :: w) next (w0 :: A) = midLit w next A := by
  unfold midLit
  rw [expectLit_cons_eq]

theorem midLit_cons_ne (w0 : Char) (w : List Char)
    (next : List Char → Option (IfMatch × List Char)) {c : Char} (A : List Char)
    (hc : c ≠ w0) : midLit (w0 :: w) next (c :: A) = none := by
  unfold midLit
  rw [expectLit_cons_ne _ _ _ hc]

/-- The set of intermediate states the matcher can be in while scanning. -/
inductive PState where
  | pTop
  | pF
  | pLParen
  | pVar
  | pMidVar (buf : List Char)
  | pGt (v : List Char)
  | pThresh (v : List Char)
  | pMidThresh (v buf : List Char)
  | pRParen (v k : List Char)
  | pTarget (v k : List Char)
  | pMidTarget (v k buf : List Char)
  | pEq1 (v k t : List Char)
  | pTrueVal (v k t : List Char)
  | pMidTrueVal (v k t buf : List Char)
  | pSemi1 (v k t tv : List Char)
  | pElse (v k t tv : List Char)
  | pMidElse (rest v k t tv : List Char)
  | pRef (v k t tv : List Char)
  | pMidRef (rest v k t tv : List Char)
  | pEq2 (v k t tv : List Char)
  | pFalseVal (v k t tv : List Char)
  | pMidFalseVal (v k t tv buf : List Char)
  | pFinal (v k t tv fv : List Char)

/-- Run the matcher from an intermediate state. -/
def runP : PState → List Char → Option (IfMatch × List Char)
  | .pTop, l => matchAt l
  | .pF, l => stF l
  | .pLParen, l => stLParen l
  | .pVar, l => stVar l
  | .pMidVar buf, l => midWordVar buf l
  | .pGt v, l => stGt v l
  | .pThresh v, l => stThresh v l
  | .pMidThresh v buf, l => midNumThresh v buf l
  | .pRParen v k, l => stRParen v k l
  | .pTarget v k, l => stTarget v k l
  | .pMidTarget v k buf, l => midWordTarget v k buf l
  | .pEq1 v k t, l => stEq1 v k t l
  | .pTrueVal v k t, l => stTrueVal v k t l
  | .pMidTrueVal v k t buf, l => midNumTrueVal v k t buf l
  | .pSemi1 v k t tv, l => stSemi1 v k t tv l
  | .pElse v k t tv, l => stElse v k t tv l
  | .pMidElse rest v k t tv, l => midLitElse rest v k t tv l
  | .pRef v k t tv, l => stRef v k t tv l
  | .pMidRef rest v k t tv, l => midLitRef rest v k t tv l
  | .pEq2 v k t tv, l => stEq2 v k t tv l
  | .pFalseVal v k t tv, l => stFalseVal v k t tv l
  | .pMidFalseVal v k t tv buf, l => midNumFalseVal v k t tv buf l
  | .pFinal v k t tv fv, l => stFinal v k t tv fv l

/-- A nonempty all-word-character token. -/
def tOk (t : List Char) : Prop := t ≠ [] ∧ wordList t

/-- Invariants on the captured pieces carried by a reachable state. -/
def ValidP : PState → Prop
  | .pMidTarget _ _ buf => tOk buf
  | .pEq1 _ _ t => tOk t
  | .pTrueVal _ _ t => tOk t
  | .pMidTrueVal _ _ t _ => tOk t
  | .pSemi1 _ _ t _ => tOk t
  | .pElse _ _ t _ => tOk t
  | .pMidElse rest _ _ t _ => (rest ≠ [] ∧ wordList rest) ∧ tOk t
  | .pRef _ _ t _ => tOk t
  | .pMidRef rest _ _ _ _ => rest ≠ [] ∧ wordList rest
  | _ => True

/-- From any reachable intermediate state, the matcher fails on a string that
begins with a replacement text. -/
theorem midFail_master (s : PState) (hs : ValidP s) (m : IfMatch) (hm : ValidCaps m)
    (X : List Char) : runP s (replacement m ++ X) = none := by
  obtain ⟨hv, hvw, hk, hkn, hT, hTw, htv, htvn, hfv, hfvn⟩ := hm
  rw [replacement_append]
  cases s with
  | pTop =>
    exact matchAt_word_fail _ hT hTw (expectChar_cons_ne _ (by decide))
      (by rw [skipSpaces_cons_space _ (by decide), skipSpaces_cons_nospace _ (by decide)]
          exact expectChar_cons_ne _ (by decide))
  | pF =>
    exact stF_word_fail _ hT hTw
      (by rw [skipSpaces_cons_space _ (by decide), skipSpaces_cons_nospace _ (by decide)]
          exact expectChar_cons_ne _ (by decide))
  | pLParen => exact stLParen_word_fail _ hT hTw
  | pVar => exact stVar_word_fail _ hT hTw
  | pMidVar buf => exact midWordVar_fail buf _ hTw
  | pGt v => exact stGt_word_fail v _ hT hTw
  | pThresh v => exact stThresh_num_fail v _ hT hTw
  | pMidThresh v buf => exact midNumThresh_fail v buf _ hTw
  | pRParen v k => exact stRParen_word_fail v k _ hT hTw
  | pTarget v k => exact stTarget_word_fail v k _ hT hTw
  | pMidTarget v k buf => exact midWordTarget_fail v k buf _ hTw
  | pEq1 v k t => exact stEq1_word_fail v k t _ hT hTw
  | pTrueVal v k t => exact stTrueVal_num_fail v k t _ hT hTw
  | pMidTrueVal v k t buf => exact midNumTrueVal_fail v k t buf _ hTw
  | pSemi1 v k t tv => exact stSemi1_word_fail v k t tv _ hT hTw
  | pElse v k t tv => exact stElse_word_fail v k t tv hs.1 hs.2 _ hT hTw
  | pMidElse rest v k t tv =>
    exact midLitElse_fail rest v k t tv hs.1.2 hs.2.1 hs.2.2 _ hTw
  | pRef v k t tv => exact stRef_tail_fail v k t tv hs.1 hs.2 _ hTw
  | pMidRef rest v k t tv => exact midLitRef_fail rest v k t tv hs.2 _ hTw
  | pEq2 v k t tv => exact stEq2_word_fail v k t tv _ hT hTw
  | pFalseVal v k t tv => exact stFalseVal_num_fail v k t tv _ hT hTw
  | pMidFalseVal v k t tv buf => exact midNumFalseVal_fail v k t tv buf _ hTw
  | pFinal v k t tv fv => exact stFinal_word_fail v k t tv fv _ hT hTw

theorem wordList_lse : wordList ('l' :: 's' :: 'e' :: []) := by
  intro c hc
  have hmem : c ∈ ['l', 's', 'e'] := hc
  simp only [List.mem_cons, List.not_mem_nil, or_false] at hmem
  rcases hmem with rfl | rfl | rfl <;> decide

theorem wordList_single {c : Char} (h : isWordChar c = true) : wordList [c] := by
  intro x hx
  rw [List.mem_singleton] at hx
  subst hx
  exact h

theorem wordList_tail {c : Char} {l : List Char} (h : wordList (c :: l)) : wordList l :=
  fun x hx => h x (List.mem_cons_of_mem _ hx)

/-- If the matcher fails on `l` from a reachable state, it also fails on
`replaceAll l`: replacement never creates a new match for a scan already in
progress. -/
theorem nonePreserve : ∀ n : Nat, ∀ l : List Char, l.length ≤ n → ∀ s : PState,
    ValidP s → runP s l = none → runP s (replaceAll l) = none := by
  intro n
  induction n with
  | zero =>
    intro l hl s _ h
    have hnil : l = [] := List.length_eq_zero.mp (Nat.le_zero.mp hl)
    subst hnil
    exact h
  | succ n ih =>
    intro l hl s hs h
    cases l with
    | nil => exact h
    | cons c l' =>
      cases hm : matchAt (c :: l') with
      | some pr =>
        obtain ⟨m, rem⟩ := pr
        rw [replaceAll_cons_match hm]
        exact midFail_master s hs m (matchAt_caps hm) _
      | none =>
        rw [replaceAll_cons_none hm]
        have hlen : l'.length ≤ n := by
          simp only [List.length_cons] at hl
          omega
        cases s with
        | pTop =>
          have h0 : matchAt (c :: l') = none := h
          show matchAt (c :: replaceAll l') = none
          by_cases hc : c = 'i'
          · subst hc
            rw [matchAt_i] at h0 ⊢
            exact ih l' hlen .pF trivial h0
          · rw [matchAt_cons_ne _ hc]
        | pF =>
          have h0 : stF (c :: l') = none := h
          show stF (c :: replaceAll l') = none
          by_cases hc : c = 'f'
          · subst hc
            rw [stF_f] at h0 ⊢
            exact ih l' hlen .pLParen trivial h0
          · rw [stF_cons_ne _ hc]
        | pLParen =>
          have h0 : expectStage '(' stVar (c :: l') = none := h
          show expectStage '(' stVar (c :: replaceAll l') = none
          by_cases hsp : isSpaceChar c = true
          · rw [expectStage_cons_space _ _ _ hsp] at h0 ⊢
            exact ih l' hlen .pLParen trivial h0
          · replace hsp : isSpaceChar c = false := by simpa using hsp
            by_cases hcy : c = '('
            · subst hcy
              rw [expectStage_cons_eq _ _ _ (by decide)] at h0 ⊢
              exact ih l' hlen .pVar trivial h0
            · exact expectStage_cons_ne _ _ _ hsp hcy
        | pVar =>
          have h0 : takeStage isWordChar stGt (c :: l') = none := h
          show takeStage isWordChar stGt (c :: replaceAll l') = none
          by_cases hsp : isSpaceChar c = true
          · rw [takeStage_cons_space _ _ _ hsp] at h0 ⊢
            exact ih l' hlen .pVar trivial h0
          · replace hsp : isSpaceChar c = false := by simpa using hsp
            by_cases hw : isWordChar c = true
            · rw [takeStage_cons_pos _ _ _ hsp hw] at h0 ⊢
              exact ih l' hlen (.pMidVar [c]) trivial h0
            · replace hw : isWordChar c = false := by simpa using hw
              exact takeStage_cons_none _ _ _ hsp hw
        | pMidVar buf =>
          have h0 : midTake isWordChar stGt buf (c :: l') = none := h
          show midTake isWordChar stGt buf (c :: replaceAll l') = none
          by_cases hw : isWordChar c = true
          · rw [midTake_cons_pos _ _ _ _ hw] at h0 ⊢
            exact ih l' hlen (.pMidVar (buf ++ [c])) trivial h0
          · replace hw : isWordChar c = false := by simpa using hw
            rw [midTake_cons_neg _ _ _ _ hw] at h0 ⊢
            have h1 : expectStage '>' (stThresh buf) (c :: l') = none := h0
            show expectStage '>' (stThresh buf) (c :: replaceAll l') = none
            by_cases hsp : isSpaceChar c = true
            · rw [expectStage_cons_space _ _ _ hsp] at h1 ⊢
              exact ih l' hlen (.pGt buf) trivial h1
            · replace hsp : isSpaceChar c = false := by simpa using hsp
              by_cases hcy : c = '>'
              · subst hcy
                rw [expectStage_cons_eq _ _ _ (by decide)] at h1 ⊢
                exact ih l' hlen (.pThresh buf) trivial h1
              · exact expectStage_cons_ne _ _ _ hsp hcy
        | pGt v =>
          have h0 : expectStage '>' (stThresh v) (c :: l') = none := h
          show expectStage '>' (stThresh v) (c :: replaceAll l') = none
          by_cases hsp : isSpaceChar c = true
          · rw [expectStage_cons_space _ _ _ hsp] at h0 ⊢
            exact ih l' hlen (.pGt v) trivial h0
          · replace hsp : isSpaceChar c = false := by simpa using hsp
            by_cases hcy : c = '>'
            · subst hcy
              rw [expectStage_cons_eq _ _ _ (by decide)] at h0 ⊢
              exact ih l' hlen (.pThresh v) trivial h0
            · exact expectStage_cons_ne _ _ _ hsp hcy
        | pThresh v =>
          have h0 : takeStage isNumChar (stRParen v) (c :: l') = none := h
          show takeStage isNumChar (stRParen v) (c :: replaceAll l') = none
          by_cases hsp : isSpaceChar c = true
          · rw [takeStage_cons_space _ _ _ hsp] at h0 ⊢
            exact ih l' hlen (.pThresh v) trivial h0
          · replace hsp : isSpaceChar c = false := by simpa using hsp
            by_cases hn : isNumChar c = true
            · rw [takeStage_cons_pos _ _ _ hsp hn] at h0 ⊢
              exact ih l' hlen (.pMidThresh v [c]) trivial h0
            · replace hn : isNumChar c = false := by simpa using hn
              exact takeStage_cons_none _ _ _ hsp hn
        | pMidThresh v buf =>
          have h0 : midTake isNumChar (stRParen v) buf (c :: l') = none := h
          show midTake isNumChar (stRParen v) buf (c :: replaceAll l') = none
          by_cases hn : isNumChar c = true
          · rw [midTake_cons_pos _ _ _ _ hn] at h0 ⊢
            exact ih l' hlen (.pMidThresh v (buf ++ [c])) trivial h0
          · replace hn : isNumChar c = false := by simpa using hn
            rw [midTake_cons_neg _ _ _ _ hn] at h0 ⊢
            have h1 : expectStage ')' (stTarget v buf) (c :: l') = none := h0
            show expectStage ')' (stTarget v buf) (c :: replaceAll l') = none
            by_cases hsp : isSpaceChar c = true
            · rw [expectStage_cons_space _ _ _ hsp] at h1 ⊢
              exact ih l' hlen (.pRParen v buf) trivial h1
            · replace hsp : isSpaceChar c = false := by simpa using hsp
              by_cases hcy : c = ')'
              · subst hcy
                rw [expectStage_cons_eq _ _ _ (by decide)] at h1 ⊢
                exact ih l' hlen (.pTarget v buf) trivial h1
              · exact expectStage_cons_ne _ _ _ hsp hcy
        | pRParen v k =>
          have h0 : expectStage ')' (stTarget v k) (c :: l') = none := h
          show expectStage ')' (stTarget v k) (c :: replaceAll l') = none
          by_cases hsp : isSpaceChar c = true
          · rw [expectStage_cons_space _ _ _ hsp] at h0 ⊢
            exact ih l' hlen (.pRParen v k) trivial h0
          · replace hsp : isSpaceChar c = false := by simpa using hsp
            by_cases hcy : c = ')'
            · subst hcy
              rw [expectStage_cons_eq _ _ _ (by decide)] at h0 ⊢
              exact ih l' hlen (.pTarget v k) trivial h0
            · exact expectStage_cons_ne _ _ _ hsp hcy
        | pTarget v k =>
          have h0 : takeStage isWordChar (stEq1 v k) (c :: l') = none := h
          show takeStage isWordChar (stEq1 v k) (c :: replaceAll l') = none
          by_cases hsp : isSpaceChar c = true
          · rw [takeStage_cons_space _ _ _ hsp] at h0 ⊢
            exact ih l' hlen (.pTarget v k) trivial h0
          · replace hsp : isSpaceChar c = false := by simpa using hsp
            by_cases hw : isWordChar c = true
            · rw [takeStage_cons_pos _ _ _ hsp hw] at h0 ⊢
              exact ih l' hlen (.pMidTarget v k [c]) ⟨by simp, wordList_single hw⟩ h0
            · replace hw : isWordChar c = false := by simpa using hw
              exact takeStage_cons_none _ _ _ hsp hw
        | pMidTarget v k buf =>
          have h0 : midTake isWordChar (stEq1 v k) buf (c :: l') = none := h
          show midTake isWordChar (stEq1 v k) buf (c :: replaceAll l') = none
          by_cases hw : isWordChar c = true
          · rw [midTake_cons_pos _ _ _ _ hw] at h0 ⊢
            refine ih l' hlen (.pMidTarget v k (buf ++ [c])) ⟨by simp, ?_⟩ h0
            intro x hx
            rcases List.mem_append.mp hx with hx | hx
            · exact hs.2 x hx
            · rw [List.mem_singleton] at hx
              subst hx
              exact hw
          · replace hw : isWordChar c = false := by simpa using hw
            rw [midTake_cons_neg _ _ _ _ hw] at h0 ⊢
            have h1 : expectStage '=' (stTrueVal v k buf) (c :: l') = none := h0
            show expectStage '=' (stTrueVal v k buf) (c :: replaceAll l') = none
            by_cases hsp : isSpaceChar c = true
            · rw [expectStage_cons_space _ _ _ hsp] at h1 ⊢
              exact ih l' hlen (.pEq1 v k buf) hs h1
            · replace hsp : isSpaceChar c = false := by simpa using hsp
              by_cases hcy : c = '='
              · subst hcy
                rw [expectStage_cons_eq _ _ _ (by decide)] at h1 ⊢
                exact ih l' hlen (.pTrueVal v k buf) hs h1
              · exact expectStage_cons_ne _ _ _ hsp hcy
        | pEq1 v k t =>
          have h0 : expectStage '=' (stTrueVal v k t) (c :: l') = none := h
          show expectStage '=' (stTrueVal v k t) (c :: replaceAll l') = none
          by_cases hsp : isSpaceChar c = true
          · rw [expectStage_cons_space _ _ _ hsp] at h0 ⊢
            exact ih l' hlen (.pEq1 v k t) hs h0
          · replace hsp : isSpaceChar c = false := by simpa using hsp
            by_cases hcy : c = '='
            · subst hcy
              rw [expectStage_cons_eq _ _ _ (by decide)] at h0 ⊢
              exact ih l' hlen (.pTrueVal v k t) hs h0
            · exact expectStage_cons_ne _ _ _ hsp hcy
        | pTrueVal v k t =>
          have h0 : takeStage isNumChar (stSemi1 v k t) (c :: l') = none := h
          show takeStage isNumChar (stSemi1 v k t) (c :: replaceAll l') = none
          by_cases hsp : isSpaceChar c = true
          · rw [takeStage_cons_space _ _ _ hsp] at h0 ⊢
            exact ih l' hlen (.pTrueVal v k t) hs h0
          · replace hsp : isSpaceChar c = false := by simpa using hsp
            by_cases hn : isNumChar c = true
            · rw [takeStage_cons_pos _ _ _ hsp hn] at h0 ⊢
              exact ih l' hlen (.pMidTrueVal v k t [c]) hs h0
            · replace hn : isNumChar c = false := by simpa using hn
              exact takeStage_cons_none _ _ _ hsp hn
        | pMidTrueVal v k t buf =>
          have h0 : midTake isNumChar (stSemi1 v k t) buf (c :: l') = none := h
          show midTake isNumChar (stSemi1 v k t) buf (c :: replaceAll l') = none
          by_cases hn : isNumChar c = true
          · rw [midTake_cons_pos _ _ _ _ hn] at h0 ⊢
            exact ih l' hlen (.pMidTrueVal v k t (buf ++ [c])) hs h0
          · replace hn : isNumChar c = false := by simpa using hn
            rw [midTake_cons_neg _ _ _ _ hn] at h0 ⊢
            have h1 : expectStage ';' (stElse v k t buf) (c :: l') = none := h0
            show expectStage ';' (stElse v k t buf) (c :: replaceAll l') = none
            by_cases hsp : isSpaceChar c = true
            · rw [expectStage_cons_space _ _ _ hsp] at h1 ⊢
              exact ih l' hlen (.pSemi1 v k t buf) hs h1
            · replace hsp : isSpaceChar c = false := by simpa using hsp
              by_cases hcy : c = ';'
              · subst hcy
                rw [expectStage_cons_eq _ _ _ (by decide)] at h1 ⊢
                exact ih l' hlen (.pElse v k t buf) hs h1
              · exact expectStage_cons_ne _ _ _ hsp hcy
        | pSemi1 v k t tv =>
          have h0 : expectStage ';' (stElse v k t tv) (c :: l') = none := h
          show expectStage ';' (stElse v k t tv) (c :: replaceAll l') = none
          by_cases hsp : isSpaceChar c = true
          · rw [expectStage_cons_space _ _ _ hsp] at h0 ⊢
            exact ih l' hlen (.pSemi1 v k t tv) hs h0
          · replace hsp : isSpaceChar c = false := by simpa using hsp
            by_cases hcy : c = ';'
            · subst hcy
              rw [expectStage_cons_eq _ _ _ (by decide)] at h0 ⊢
              exact ih l' hlen (.pElse v k t tv) hs h0
            · exact expectStage_cons_ne _ _ _ hsp hcy
        | pElse v k t tv =>
          have h0 : litStage ('e' :: 'l' :: 's' :: 'e' :: []) (stRef v k t tv)
              (c :: l') = none := h
          show litStage ('e' :: 'l' :: 's' :: 'e' :: []) (stRef v k t tv)
            (c :: replaceAll l') = none
          by_cases hsp : isSpaceChar c = true
          · rw [litStage_cons_space _ _ _ hsp] at h0 ⊢
            exact ih l' hlen (.pElse v k t tv) hs h0
          · replace hsp : isSpaceChar c = false := by simpa using hsp
            by_cases hcy : c = 'e'
            · subst hcy
              rw [litStage_cons_eq _ _ _ _ (by decide)] at h0 ⊢
              exact ih l' hlen (.pMidElse ('l' :: 's' :: 'e' :: []) v k t tv)
                ⟨⟨by simp, wordList_lse⟩, hs⟩ h0
            · exact litStage_cons_ne _ _ _ _ hsp hcy
        | pMidElse rest v k t tv =>
          obtain ⟨⟨hrne, hrw⟩, hts⟩ := hs
          cases rest with
          | nil => exact absurd rfl hrne
          | cons r0 rest' =>
            have h0 : midLit (r0 :: rest') (stRef v k t tv) (c :: l') = none := h
            show midLit (r0 :: rest') (stRef v k t tv) (c :: replaceAll l') = none
            by_cases hcy : c = r0
            · subst hcy
              rw [midLit_cons_eq] at h0 ⊢
              cases rest' with
              | nil =>
                rw [midLit_nil] at h0 ⊢
                exact ih l' hlen (.pRef v k t tv) hts h0
              | cons r1 rest'' =>
                exact ih l' hlen (.pMidElse (r1 :: rest'') v k t tv)
                  ⟨⟨by simp, wordList_tail hrw⟩, hts⟩ h0
            · exact midLit_cons_ne _ _ _ _ hcy
        | pRef v k t tv =>
          obtain ⟨htne, htw⟩ := hs
          cases t with
          | nil => exact absurd rfl htne
          | cons t0 t1 =>
            have h0 : litStage (t0 :: t1) (stEq2 v k (t0 :: t1) tv) (c :: l') = none := h
            show litStage (t0 :: t1) (stEq2 v k (t0 :: t1) tv) (c :: replaceAll l') = none
            by_cases hsp : isSpaceChar c = true
            · rw [litStage_cons_space _ _ _ hsp] at h0 ⊢
              exact ih l' hlen (.pRef v k (t0 :: t1) tv) ⟨htne, htw⟩ h0
            · replace hsp : isSpaceChar c = false := by simpa using hsp
              by_cases hcy : c = t0
              · subst hcy
                rw [litStage_cons_eq _ _ _ _ (word_not_space (htw c (by simp)))] at h0 ⊢
                cases t1 with
                | nil =>
                  rw [midLit_nil] at h0 ⊢
                  exact ih l' hlen (.pEq2 v k (c :: []) tv) trivial h0
                | cons u1 t2 =>
                  exact ih l' hlen (.pMidRef (u1 :: t2) v k (c :: u1 :: t2) tv)
                    ⟨by simp, wordList_tail htw⟩ h0
              · exact litStage_cons_ne _ _ _ _ hsp hcy
        | pMidRef rest v k t tv =>
          obtain ⟨hrne, hrw⟩ := hs
          cases rest with
          | nil => exact absurd rfl hrne
          | cons r0 rest' =>
            have h0 : midLit (r0 :: rest') (stEq2 v k t tv) (c :: l') = none := h
            show midLit (r0 :: rest') (stEq2 v k t tv) (c :: replaceAll l') = none
            by_cases hcy : c = r0
            · subst hcy
              rw [midLit_cons_eq] at h0 ⊢
              cases rest' with
              | nil =>
                rw [midLit_nil] at h0 ⊢
                exact ih l' hlen (.pEq2 v k t tv) trivial h0
              | cons r1 rest'' =>
                exact ih l' hlen (.pMidRef (r1 :: rest'') v k t tv)
                  ⟨by simp, wordList_tail hrw⟩ h0
            · exact midLit_cons_ne _ _ _ _ hcy
        | pEq2 v k t tv =>
          have h0 : expectStage '=' (stFalseVal v k t tv) (c :: l') = none := h
          show expectStage '=' (stFalseVal v k t tv) (c :: replaceAll l') = none
          by_cases hsp : isSpaceChar c = true
          · rw [expectStage_cons_space _ _ _ hsp] at h0 ⊢
            exact ih l' hlen (.pEq2 v k t tv) trivial h0
          · replace hsp : isSpaceChar c = false := by simpa using hsp
            by_cases hcy : c = '='
            · subst hcy
              rw [expectStage_cons_eq _ _ _ (by decide)] at h0 ⊢
              exact ih l' hlen (.pFalseVal v k t tv) trivial h0
            · exact expectStage_cons_ne _ _ _ hsp hcy
        | pFalseVal v k t tv =>
          have h0 : takeStage isNumChar (stFinal v k t tv) (c :: l') = none := h
          show takeStage isNumChar (stFinal v k t tv) (c :: replaceAll l') = none
          by_cases hsp : isSpaceChar c = true
          · rw [takeStage_cons_space _ _ _ hsp] at h0 ⊢
            exact ih l' hlen (.pFalseVal v k t tv) trivial h0
          · replace hsp : isSpaceChar c = false := by simpa using hsp
            by_cases hn : isNumChar c = true
            · rw [takeStage_cons_pos _ _ _ hsp hn] at h0 ⊢
              exact ih l' hlen (.pMidFalseVal v k t tv [c]) trivial h0
            · replace hn : isNumChar c = false := by simpa using hn
              exact takeStage_cons_none _ _ _ hsp hn
        | pMidFalseVal v k t tv buf =>
          have h0 : midTake isNumChar (stFinal v k t tv) buf (c :: l') = none := h
          show midTake isNumChar (stFinal v k t tv) buf (c :: replaceAll l') = none
          by_cases hn : isNumChar c = true
          · rw [midTake_cons_pos _ _ _ _ hn] at h0 ⊢
            exact ih l' hlen (.pMidFalseVal v k t tv (buf ++ [c])) trivial h0
          · replace hn : isNumChar c = false := by simpa using hn
            rw [midTake_cons_neg _ _ _ _ hn] at h0 ⊢
            have h1 : expectStage ';' (fun r => some (⟨v, k, t, tv, buf⟩, r))
                (c :: l') = none := h0
            show expectStage ';' (fun r => some (⟨v, k, t, tv, buf⟩, r))
              (c :: replaceAll l') = none
            by_cases hsp : isSpaceChar c = true
            · rw [expectStage_cons_space _ _ _ hsp] at h1 ⊢
              exact ih l' hlen (.pFinal v k t tv buf) trivial h1
            · replace hsp : isSpaceChar c = false := by simpa using hsp
              by_cases hcy : c = ';'
              · subst hcy
                rw [expectStage_cons_eq _ _ _ (by decide)] at h1
                exact absurd h1 (by simp)
              · exact expectStage_cons_ne _ _ _ hsp hcy
        | pFinal v k t tv fv =>
          have h0 : expectStage ';' (fun r => some (⟨v, k, t, tv, fv⟩, r))
              (c :: l') = none := h
          show expectStage ';' (fun r => some (⟨v, k, t, tv, fv⟩, r))
            (c :: replaceAll l') = none
          by_cases hsp : isSpaceChar c = true
          · rw [expectStage_cons_space _ _ _ hsp] at h0 ⊢
            exact ih l' hlen (.pFinal v k t tv fv) trivial h0
          · replace hsp : isSpaceChar c = false := by simpa using hsp
            by_cases hcy : c = ';'
            · subst hcy
              rw [expectStage_cons_eq _ _ _ (by decide)] at h0
              exact absurd h0 (by simp)
            · exact expectStage_cons_ne _ _ _ hsp hcy

/-- The matcher fails at every position strictly inside a replacement text,
whatever follows it. -/
theorem replacement_suffix_fail (m : IfMatch) (hmc : ValidCaps m) :
    ∀ y, y ≠ [] → y <:+ replacement m → ∀ t, matchAt (y ++ t) = none := by
  obtain ⟨hv, hvw, hk, hkn, hT, hTw, htv, htvn, hfv, hfvn⟩ := hmc
  have hsplit : replacement m =
      m.target ++ ((' ' :: '=' :: ' ' :: 'm' :: 'i' :: 'x' :: '(' :: []) ++
        (m.falseVal ++ ((',' :: ' ' :: []) ++
          (m.trueVal ++ ((',' :: ' ' :: 's' :: 't' :: 'e' :: 'p' :: '(' :: []) ++
            (m.thresh ++ ((',' :: ' ' :: []) ++
              (m.vari ++ (')' :: ')' :: ';' :: []))))))))) := by
    unfold replacement
    simp only [List.append_assoc, List.cons_append, List.nil_append]
  intro y hy hsuf t
  rw [hsplit] at hsuf
  rcases suffix_append_split hsuf with h1 | ⟨ya, hne, hsufa, rfl⟩
  · rcases suffix_append_split h1 with h2 | ⟨yb, hne, hsufb, rfl⟩
    · rcases suffix_append_split h2 with h3 | ⟨yc, hne, hsufc, rfl⟩
      · rcases suffix_append_split h3 with h4 | ⟨yd, hne, hsufd, rfl⟩
        · rcases suffix_append_split h4 with h5 | ⟨ye, hne, hsufe, rfl⟩
          · rcases suffix_append_split h5 with h6 | ⟨yf, hne, hsuff, rfl⟩
            · rcases suffix_append_split h6 with h7 | ⟨yg, hne, hsufg, rfl⟩
              · rcases suffix_append_split h7 with h8 | ⟨yh, hne, hsufh, rfl⟩
                · rcases suffix_append_split h8 with h9 | ⟨yi, hne, hsufi, rfl⟩
                  · exact noIfStart_safe _ (by decide) y hy h9 t
                  · simp only [List.cons_append, List.append_assoc]
                    exact matchAt_word_fail _ hne (fun x hx => hvw x (hsufi.subset hx))
                      (expectChar_cons_ne _ (by decide))
                      (by rw [skipSpaces_cons_nospace _ (by decide)]
                          exact expectChar_cons_ne _ (by decide))
                · rw [List.append_assoc]
                  exact noIfStart_safe _ (by decide) yh hne hsufh _
              · cases yg with
                | nil => exact absurd rfl hne
                | cons a0 ya0 =>
                  have ha0 : isNumChar a0 = true := hkn a0 (hsufg.subset (by simp))
                  simp only [List.cons_append, List.append_assoc]
                  exact matchAt_cons_ne _
                    (fun he => by rw [he] at ha0; exact absurd ha0 (by decide))
            · rw [List.append_assoc]
              exact noIfStart_safe _ (by decide) yf hne hsuff _
          · cases ye with
            | nil => exact absurd rfl hne
            | cons a0 ya0 =>
              have ha0 : isNumChar a0 = true := htvn a0 (hsufe.subset (by simp))
              simp only [List.cons_append, List.append_assoc]
              exact matchAt_cons_ne _
                (fun he => by rw [he] at ha0; exact absurd ha0 (by decide))
        · rw [List.append_assoc]
          exact noIfStart_safe _ (by decide) yd hne hsufd _
      · cases yc with
        | nil => exact absurd rfl hne
        | cons a0 ya0 =>
          have ha0 : isNumChar a0 = true := hfvn a0 (hsufc.subset (by simp))
          simp only [List.cons_append, List.append_assoc]
          exact matchAt_cons_ne _
            (fun he => by rw [he] at ha0; exact absurd ha0 (by decide))
    · rw [List.append_assoc]
      exact noIfStart_safe _ (by decide) yb hne hsufb _
  · simp only [List.cons_append, List.append_assoc, List.nil_append]
    exact matchAt_word_fail _ hne (fun x hx => hTw x (hsufa.subset hx))
      (expectChar_cons_ne _ (by decide))
      (by rw [skipSpaces_cons_space _ (by decide), skipSpaces_cons_nospace _ (by decide)]
          exact expectChar_cons_ne _ (by decide))

theorem replaceAll_idemAux : ∀ n : Nat, ∀ l : List Char, l.length ≤ n →
    replaceAll (replaceAll l) = replaceAll l := by
  intro n
  induction n with
  | zero =>
    intro l hl
    have hnil : l = [] := List.length_eq_zero.mp (Nat.le_zero.mp hl)
    subst hnil
    rfl
  | succ n ih =>
    intro l hl
    cases l with
    | nil => rfl
    | cons c l' =>
      have hlen : l'.length ≤ n := by
        simp only [List.length_cons] at hl
        omega
      cases hm : matchAt (c :: l') with
      | none =>
        have h1 : runP .pTop (replaceAll (c :: l')) = none :=
          nonePreserve (n + 1) (c :: l') hl .pTop trivial hm
        rw [replaceAll_cons_none hm] at h1 ⊢
        have h1' : matchAt (c :: replaceAll l') = none := h1
        rw [replaceAll_cons_none h1', ih l' hlen]
      | some pr =>
        obtain ⟨m, rem⟩ := pr
        have hcaps := matchAt_caps hm
        rw [replaceAll_cons_match hm,
          replaceAll_append_safe (replacement m) (replaceAll rem)
            (replacement_suffix_fail m hcaps)]
        have hremlen : rem.length ≤ n := by
          have hlt := matchAt_rem_length hm
          simp only [List.length_cons] at hlt hl
          omega
        rw [ih rem hremlen]

/-- Global replacement of the conditional pattern is idempotent. -/
theorem replaceAll_idem (l : List Char) : replaceAll (replaceAll l) = replaceAll l :=
  replaceAll_idemAux l.length l le_rfl

/-! ### Preservation of the precision qualifier under the rewrite -/

theorem dropWhile_space_block : ∀ sp : List Char, spaceList sp → ∀ r : List Char,
    (sp ++ r).dropWhile isSpaceChar = r.dropWhile isSpaceChar := by
  intro sp
  induction sp with
  | nil => intro _ r; rfl
  | cons c sp' ih =>
    intro hsp r
    rw [List.cons_append, List.dropWhile_cons_of_pos (hsp c (by simp)),
      ih (fun x hx => hsp x (List.mem_cons_of_mem _ hx)) r]

theorem space_ne_p {c : Char} (h : isSpaceChar c = true) : c ≠ 'p' := by
  intro he
  subst he
  exact absurd h (by decide)

theorem num_ne_p {c : Char} (h : isNumChar c = true) : c ≠ 'p' := by
  intro he
  subst he
  exact absurd h (by decide)

theorem wordList_precision : wordList "precision".data := by
  intro c hc
  have hmem : c ∈ ['p', 'r', 'e', 'c', 'i', 's', 'i', 'o', 'n'] := hc
  simp only [List.mem_cons, List.not_mem_nil, or_false] at hmem
  rcases hmem with rfl | rfl | rfl | rfl | rfl | rfl | rfl | rfl | rfl <;> decide

theorem containsLSL_head {l1 l2 l : List Char}
    (h : litSpacesLitAt l1 l2 l = true) : containsLSL l1 l2 l = true := by
  cases l with
  | nil => exact h
  | cons c r => rw [containsLSL, h, Bool.true_or]

theorem containsLSL_tail {l1 l2 : List Char} (c : Char) {l : List Char}
    (h : containsLSL l1 l2 l = true) : containsLSL l1 l2 (c :: l) = true := by
  rw [containsLSL, h, Bool.or_true]

theorem containsLSL_append_right {l1 l2 : List Char} (u : List Char) {x : List Char}
    (h : containsLSL l1 l2 x = true) : containsLSL l1 l2 (u ++ x) = true := by
  induction u with
  | nil => exact h
  | cons c u' ih => exact containsLSL_tail c ih

theorem containsLSL_witness {l1 l2 : List Char} : ∀ {l : List Char},
    containsLSL l1 l2 l = true → ∃ y, y <:+ l ∧ litSpacesLitAt l1 l2 y = true := by
  intro l
  induction l with
  | nil => intro h; exact ⟨[], List.suffix_rfl, h⟩
  | cons c r ih =>
    intro h
    rw [containsLSL, Bool.or_eq_true] at h
    rcases h with h | h
    · exact ⟨c :: r, List.suffix_rfl, h⟩
    · obtain ⟨y, hys, hyl⟩ := ih h
      exact ⟨y, hys.trans (List.suffix_cons c r), hyl⟩

theorem witness_containsLSL {l1 l2 y x : List Char} (hsuf : y <:+ x)
    (h : litSpacesLitAt l1 l2 y = true) : containsLSL l1 l2 x = true := by
  obtain ⟨z, rfl⟩ := hsuf
  exact containsLSL_append_right z (containsLSL_head h)

theorem LSL_head_ne {qual : List Char} {c : Char} (hc : c ≠ 'p') (x : List Char) :
    litSpacesLitAt "precision".data qual (c :: x) = false := by
  unfold litSpacesLitAt
  have hpre : "precision".data.isPrefixOf (c :: x) = false := by
    show (('p' == c) && ("recision".data.isPrefixOf x)) = false
    have h2 : ('p' == c) = false := beq_eq_false_iff_ne.mpr (fun he => hc he.symm)
    rw [h2, Bool.false_and]
  rw [hpre, Bool.false_and]

theorem LSL_build {lit qual : List Char} {q0 : Char} {qt : List Char}
    (hq : qual = q0 :: qt) (hq0 : isSpaceChar q0 = false)
    {s0 : Char} {sp1 : List Char} (hspl : spaceList (s0 :: sp1)) (X : List Char) :
    litSpacesLitAt lit qual (lit ++ ((s0 :: sp1) ++ (qual ++ X))) = true := by
  unfold litSpacesLitAt
  have hpre : lit.isPrefixOf (lit ++ ((s0 :: sp1) ++ (qual ++ X))) = true :=
    List.isPrefixOf_iff_prefix.mpr (List.prefix_append _ _)
  rw [hpre, Bool.true_and, List.drop_left, List.cons_append]
  show (isSpaceChar s0 &&
    qual.isPrefixOf ((sp1 ++ (qual ++ X)).dropWhile isSpaceChar)) = true
  rw [hspl s0 (by simp), Bool.true_and,
    dropWhile_space_block sp1 (fun x hx => hspl x (List.mem_cons_of_mem _ hx)), hq,
    List.cons_append, List.dropWhile_cons_of_neg (by simp [hq0])]
  exact List.isPrefixOf_iff_prefix.mpr
    (by rw [← List.cons_append]; exact List.prefix_append _ _)

theorem LSL_decomp {lit qual l : List Char}
    (h : litSpacesLitAt lit qual l = true) :
    ∃ s0 sp1 rest, spaceList (s0 :: sp1) ∧
      l = lit ++ ((s0 :: sp1) ++ (qual ++ rest)) := by
  unfold litSpacesLitAt at h
  rw [Bool.and_eq_true] at h
  obtain ⟨hpre, hst⟩ := h
  obtain ⟨l2, hl2⟩ := List.isPrefixOf_iff_prefix.mp hpre
  have hdrop : l.drop lit.length = l2 := by rw [← hl2, List.drop_left]
  rw [hdrop] at hst
  cases l2 with
  | nil => exact absurd hst (by simp [spacesThenLit])
  | cons c r =>
    unfold spacesThenLit at hst
    rw [Bool.and_eq_true] at hst
    obtain ⟨hc, hqp⟩ := hst
    obtain ⟨rest, hrest⟩ := List.isPrefixOf_iff_prefix.mp hqp
    refine ⟨c, r.takeWhile isSpaceChar, rest, ?_, ?_⟩
    · intro x hx
      rcases List.mem_cons.mp hx with rfl | hx
      · exact hc
      · exact List.mem_takeWhile_imp hx
    · have hr : r = r.takeWhile isSpaceChar ++ (qual ++ rest) := by
        conv_lhs => rw [← List.takeWhile_append_dropWhile isSpaceChar r]
        rw [← hrest]
      rw [← hl2]
      simp only [List.cons_append]
      conv_lhs => rw [hr]


theorem LSL_fail_word_then_sym {W ya : List Char} (hWw : wordList W) (hsuf : ya <:+ W)
    {sp : List Char} (hsp : spaceList sp) {sym : Char} (hsymw : isWordChar sym = false)
    (hsymns : isSpaceChar sym = false) {qual : List Char} {q0 : Char} {qt : List Char}
    (hq : qual = q0 :: qt) (hq0sym : q0 ≠ sym) (R : List Char) :
    litSpacesLitAt "precision".data qual (ya ++ (sp ++ sym :: R)) = false := by
  cases hpre : "precision".data.isPrefixOf (ya ++ (sp ++ sym :: R)) with
  | false =>
    unfold litSpacesLitAt
    rw [hpre, Bool.false_and]
  | true =>
    have hyaw : wordList ya := fun x hx => hWw x (hsuf.subset hx)
    obtain ⟨z, hz⟩ := List.isPrefixOf_iff_prefix.mp hpre
    have hcore : ∀ ya2 : List Char, wordList ya2 →
        spacesThenLit qual (ya2 ++ (sp ++ sym :: R)) = false := by
      intro ya2 hya2w
      cases ya2 with
      | nil =>
        rw [List.nil_append]
        cases sp with
        | nil =>
          rw [List.nil_append]
          show (isSpaceChar sym && qual.isPrefixOf (R.dropWhile isSpaceChar)) = false
          rw [hsymns, Bool.false_and]
        | cons s0 sp1 =>
          rw [List.cons_append]
          show (isSpaceChar s0 &&
            qual.isPrefixOf ((sp1 ++ sym :: R).dropWhile isSpaceChar)) = false
          rw [dropWhile_space_block sp1 (fun x hx => hsp x (List.mem_cons_of_mem _ hx)),
            List.dropWhile_cons_of_neg (by simp [hsymns]), hq]
          have hqpre : (q0 :: qt).isPrefixOf (sym :: R) = false := by
            show ((q0 == sym) && (qt.isPrefixOf R)) = false
            rw [beq_eq_false_iff_ne.mpr hq0sym, Bool.false_and]
          rw [hqpre, Bool.and_false]
      | cons a0 ya2' =>
        rw [List.cons_append]
        show (isSpaceChar a0 && _) = false
        rw [word_not_space (hya2w a0 (by simp)), Bool.false_and]
    unfold litSpacesLitAt
    rw [hpre, Bool.true_and]
    rcases List.append_eq_append_iff.mp hz with ⟨ya2, hya, hrest⟩ | ⟨pd, hprec, hrest⟩
    · rw [hya, List.append_assoc, List.drop_left]
      exact hcore ya2 (fun x hx => hyaw x
        (by rw [hya]; exact List.mem_append.mpr (Or.inr hx)))
    · cases pd with
      | nil =>
        rw [List.append_nil] at hprec
        rw [← hprec, List.drop_left]
        exact hcore [] (by intro x hx; exact absurd hx (List.not_mem_nil x))
      | cons p0 pd' =>
        exfalso
        have hp0 : isWordChar p0 = true := wordList_precision p0
          (by rw [hprec]; exact List.mem_append.mpr (Or.inr (by simp)))
        have hz2 : (p0 :: pd') ++ z = sp ++ sym :: R := by
          have h6 : ya ++ ((p0 :: pd') ++ z) = ya ++ (sp ++ sym :: R) := by
            rw [← List.append_assoc, ← hprec, hz]
          exact List.append_cancel_left h6
        rw [List.cons_append] at hz2
        cases sp with
        | nil =>
          rw [List.nil_append] at hz2
          have hps : p0 = sym := by
            have h5 := congrArg List.head? hz2
            simpa using h5
          rw [hps, hsymw] at hp0
          exact absurd hp0 (by simp)
        | cons s0 sp1 =>
          rw [List.cons_append] at hz2
          have hps : p0 = s0 := by
            have h5 := congrArg List.head? hz2
            simpa using h5
          have hs0 : isSpaceChar s0 = true := hsp s0 (by simp)
          rw [hps] at hp0
          rw [word_not_space hp0] at hs0
          exact absurd hs0 (by simp)

/-! ### Full shape of a successful match -/

theorem stFinal_decomp {v k t tv fv l : List Char} {m : IfMatch} {rem : List Char}
    (h : stFinal v k t tv fv l = some (m, rem)) :
    ∃ sa, spaceList sa ∧ l = sa ++ ';' :: rem := by
  unfold stFinal at h
  cases he : expectChar ';' (skipSpaces l) with
  | none => rw [he] at h; exact absurd h (by simp)
  | some r =>
    rw [he] at h
    simp only [Option.some.injEq, Prod.mk.injEq] at h
    obtain ⟨_, hrem⟩ := h
    obtain ⟨sa, hsa, hl⟩ := skipSpaces_decomp l
    have hsk : skipSpaces l = ';' :: r := expectChar_decomp he
    refine ⟨sa, hsa, ?_⟩
    rw [hl, hsk, hrem]

theorem stFalseVal_decomp {v k t tv l : List Char} {m : IfMatch} {rem : List Char}
    (h : stFalseVal v k t tv l = some (m, rem)) :
    (m.vari = v ∧ m.thresh = k ∧ m.target = t ∧ m.trueVal = tv) ∧
    ∃ sa sb, spaceList sa ∧ spaceList sb ∧
      l = sa ++ (m.falseVal ++ (sb ++ ';' :: rem)) := by
  unfold stFalseVal at h
  cases hc : takeClass isNumChar (skipSpaces l) with
  | none => rw [hc] at h; exact absurd h (by simp)
  | some pr =>
    obtain ⟨fv, r⟩ := pr
    rw [hc] at h
    obtain ⟨_, _, heq, _⟩ := takeClass_some hc
    have hcaps := stFinal_caps h
    obtain ⟨sb, hsb, hr⟩ := stFinal_decomp h
    obtain ⟨sa, hsa, hl⟩ := skipSpaces_decomp l
    subst hcaps
    exact ⟨⟨rfl, rfl, rfl, rfl⟩, sa, sb, hsa, hsb, by rw [hl, heq, hr]⟩

theorem stEq2_decomp {v k t tv l : List Char} {m : IfMatch} {rem : List Char}
    (h : stEq2 v k t tv l = some (m, rem)) :
    (m.vari = v ∧ m.thresh = k ∧ m.target = t ∧ m.trueVal = tv) ∧
    ∃ sa sb sc, spaceList sa ∧ spaceList sb ∧ spaceList sc ∧
      l = sa ++ '=' :: (sb ++ (m.falseVal ++ (sc ++ ';' :: rem))) := by
  unfold stEq2 at h
  cases he : expectChar '=' (skipSpaces l) with
  | none => rw [he] at h; exact absurd h (by simp)
  | some r =>
    rw [he] at h
    obtain ⟨sa, hsa, hl⟩ := skipSpaces_decomp l
    have hsk := expectChar_decomp he
    obtain ⟨hargs, sb, sc, hsb, hsc, hr⟩ := stFalseVal_decomp h
    exact ⟨hargs, sa, sb, sc, hsa, hsb, hsc, by rw [hl, hsk, hr]⟩

theorem stRef_decomp {v k t tv l : List Char} {m : IfMatch} {rem : List Char}
    (h : stRef v k t tv l = some (m, rem)) :
    (m.vari = v ∧ m.thresh = k ∧ m.target = t ∧ m.trueVal = tv) ∧
    ∃ sa sb sc sd, spaceList sa ∧ spaceList sb ∧ spaceList sc ∧ spaceList sd ∧
      l = sa ++ (m.target ++ (sb ++ '=' :: (sc ++ (m.falseVal ++ (sd ++ ';' :: rem))))) := by
  unfold stRef at h
  cases he : expectLit t (skipSpaces l) with
  | none => rw [he] at h; exact absurd h (by simp)
  | some r =>
    rw [he] at h
    obtain ⟨sa, hsa, hl⟩ := skipSpaces_decomp l
    have hsk := expectLit_decomp he
    obtain ⟨hargs, sb, sc, sd, hsb, hsc, hsd, hr⟩ := stEq2_decomp h
    rw [← hargs.2.2.1] at hsk
    exact ⟨hargs, sa, sb, sc, sd, hsa, hsb, hsc, hsd, by rw [hl, hsk, hr]⟩

theorem stElse_decomp {v k t tv l : List Char} {m : IfMatch} {rem : List Char}
    (h : stElse v k t tv l = some (m, rem)) :
    (m.vari = v ∧ m.thresh = k ∧ m.target = t ∧ m.trueVal = tv) ∧
    ∃ sa sb sc sd se, spaceList sa ∧ spaceList sb ∧ spaceList sc ∧ spaceList sd ∧
      spaceList se ∧
      l = sa ++ 'e' :: 'l' :: 's' :: 'e' :: (sb ++ (m.target ++ (sc ++ '=' ::
        (sd ++ (m.falseVal ++ (se ++ ';' :: rem)))))) := by
  unfold stElse at h
  cases he : expectLit "else".data (skipSpaces l) with
  | none => rw [he] at h; exact absurd h (by simp)
  | some r =>
    rw [he] at h
    obtain ⟨sa, hsa, hl⟩ := skipSpaces_decomp l
    have hsk := expectLit_decomp he
    obtain ⟨hargs, sb, sc, sd, se, hsb, hsc, hsd, hse, hr⟩ := stRef_decomp h
    exact ⟨hargs, sa, sb, sc, sd, se, hsa, hsb, hsc, hsd, hse, by rw [hl, hsk, hr]; rfl⟩

theorem stSemi1_decomp {v k t tv l : List Char} {m : IfMatch} {rem : List Char}
    (h : stSemi1 v k t tv l = some (m, rem)) :
    (m.vari = v ∧ m.thresh = k ∧ m.target = t ∧ m.trueVal = tv) ∧
    ∃ sa sb sc sd se sf, spaceList sa ∧ spaceList sb ∧ spaceList sc ∧ spaceList sd ∧
      spaceList se ∧ spaceList sf ∧
      l = sa ++ ';' :: (sb ++ 'e' :: 'l' :: 's' :: 'e' :: (sc ++ (m.target ++ (sd ++ '=' ::
        (se ++ (m.falseVal ++ (sf ++ ';' :: rem))))))) := by
  unfold stSemi1 at h
  cases he : expectChar ';' (skipSpaces l) with
  | none => rw [he] at h; exact absurd h (by simp)
  | some r =>
    rw [he] at h
    obtain ⟨sa, hsa, hl⟩ := skipSpaces_decomp l
    have hsk := expectChar_decomp he
    obtain ⟨hargs, sb, sc, sd, se, sf, hsb, hsc, hsd, hse, hsf, hr⟩ := stElse_decomp h
    exact ⟨hargs, sa, sb, sc, sd, se, sf, hsa, hsb, hsc, hsd, hse, hsf, by rw [hl, hsk, hr]⟩

theorem stTrueVal_decomp {v k t l : List Char} {m : IfMatch} {rem : List Char}
    (h : stTrueVal v k t l = some (m, rem)) :
    (m.vari = v ∧ m.thresh = k ∧ m.target = t) ∧
    ∃ sa sb sc sd se sf sg, spaceList sa ∧ spaceList sb ∧ spaceList sc ∧ spaceList sd ∧
      spaceList se ∧ spaceList sf ∧ spaceList sg ∧
      l = sa ++ (m.trueVal ++ (sb ++ ';' :: (sc ++ 'e' :: 'l' :: 's' :: 'e' ::
        (sd ++ (m.target ++ (se ++ '=' ::
        (sf ++ (m.falseVal ++ (sg ++ ';' :: rem))))))))) := by
  unfold stTrueVal at h
  cases hc : takeClass isNumChar (skipSpaces l) with
  | none => rw [hc] at h; exact absurd h (by simp)
  | some pr =>
    obtain ⟨tvv, r⟩ := pr
    rw [hc] at h
    obtain ⟨_, _, heq, _⟩ := takeClass_some hc
    obtain ⟨sa, hsa, hl⟩ := skipSpaces_decomp l
    obtain ⟨hargs, sb, sc, sd, se, sf, sg, hsb, hsc, hsd, hse, hsf, hsg, hr⟩ :=
      stSemi1_decomp h
    rw [← hargs.2.2.2] at heq
    exact ⟨⟨hargs.1, hargs.2.1, hargs.2.2.1⟩, sa, sb, sc, sd, se, sf, sg,
      hsa, hsb, hsc, hsd, hse, hsf, hsg, by rw [hl, heq, hr]⟩

theorem stEq1_decomp {v k t l : List Char} {m : IfMatch} {rem : List Char}
    (h : stEq1 v k t l = some (m, rem)) :
    (m.vari = v ∧ m.thresh = k ∧ m.target = t) ∧
    ∃ sa sb sc sd se sf sg sh, spaceList sa ∧ spaceList sb ∧ spaceList sc ∧
      spaceList sd ∧ spaceList se ∧ spaceList sf ∧ spaceList sg ∧ spaceList sh ∧
      l = sa ++ '=' :: (sb ++ (m.trueVal ++ (sc ++ ';' :: (sd ++ 'e' :: 'l' :: 's' :: 'e' ::
        (se ++ (m.target ++ (sf ++ '=' ::
        (sg ++ (m.falseVal ++ (sh ++ ';' :: rem)))))))))) := by
  unfold stEq1 at h
  cases he : expectChar '=' (skipSpaces l) with
  | none => rw [he] at h; exact absurd h (by simp)
  | some r =>
    rw [he] at h
    obtain ⟨sa, hsa, hl⟩ := skipSpaces_decomp l
    have hsk := expectChar_decomp he
    obtain ⟨hargs, sb, sc, sd, se, sf, sg, sh, hsb, hsc, hsd, hse, hsf, hsg, hsh, hr⟩ :=
      stTrueVal_decomp h
    exact ⟨hargs, sa, sb, sc, sd, se, sf, sg, sh,
      hsa, hsb, hsc, hsd, hse, hsf, hsg, hsh, by rw [hl, hsk, hr]⟩

theorem stTarget_decomp {v k l : List Char} {m : IfMatch} {rem : List Char}
    (h : stTarget v k l = some (m, rem)) :
    (m.vari = v ∧ m.thresh = k) ∧
    ∃ sa sb sc sd se sf sg sh si, spaceList sa ∧ spaceList sb ∧ spaceList sc ∧
      spaceList sd ∧ spaceList se ∧ spaceList sf ∧ spaceList sg ∧ spaceList sh ∧
      spaceList si ∧
      l = sa ++ (m.target ++ (sb ++ '=' :: (sc ++ (m.trueVal ++ (sd ++ ';' ::
        (se ++ 'e' :: 'l' :: 's' :: 'e' :: (sf ++ (m.target ++ (sg ++ '=' ::
        (sh ++ (m.falseVal ++ (si ++ ';' :: rem)))))))))))) := by
  unfold stTarget at h
  cases hc : takeClass isWordChar (skipSpaces l) with
  | none => rw [hc] at h; exact absurd h (by simp)
  | some pr =>
    obtain ⟨T, r⟩ := pr
    rw [hc] at h
    obtain ⟨_, _, heq, _⟩ := takeClass_some hc
    obtain ⟨sa, hsa, hl⟩ := skipSpaces_decomp l
    obtain ⟨hargs, sb, sc, sd, se, sf, sg, sh, si,
      hsb, hsc, hsd, hse, hsf, hsg, hsh, hsi, hr⟩ := stEq1_decomp h
    rw [← hargs.2.2] at heq
    exact ⟨⟨hargs.1, hargs.2.1⟩, sa, sb, sc, sd, se, sf, sg, sh, si,
      hsa, hsb, hsc, hsd, hse, hsf, hsg, hsh, hsi, by rw [hl, heq, hr]⟩

theorem stRParen_decomp {v k l : List Char} {m : IfMatch} {rem : List Char}
    (h : stRParen v k l = some (m, rem)) :
    (m.vari = v ∧ m.thresh = k) ∧
    ∃ sa sb sc sd se sf sg sh si sj, spaceList sa ∧ spaceList sb ∧ spaceList sc ∧
      spaceList sd ∧ spaceList se ∧ spaceList sf ∧ spaceList sg ∧ spaceList sh ∧
      spaceList si ∧ spaceList sj ∧
      l = sa ++ ')' :: (sb ++ (m.target ++ (sc ++ '=' :: (sd ++ (m.trueVal ++
        (se ++ ';' :: (sf ++ 'e' :: 'l' :: 's' :: 'e' :: (sg ++ (m.target ++
        (sh ++ '=' :: (si ++ (m.falseVal ++ (sj ++ ';' :: rem))))))))))))) := by
  unfold stRParen at h
  cases he : expectChar ')' (skipSpaces l) with
  | none => rw [he] at h; exact absurd h (by simp)
  | some r =>
    rw [he] at h
    obtain ⟨sa, hsa, hl⟩ := skipSpaces_decomp l
    have hsk := expectChar_decomp he
    obtain ⟨hargs, sb, sc, sd, se, sf, sg, sh, si, sj,
      hsb, hsc, hsd, hse, hsf, hsg, hsh, hsi, hsj, hr⟩ := stTarget_decomp h
    exact ⟨hargs, sa, sb, sc, sd, se, sf, sg, sh, si, sj,
      hsa, hsb, hsc, hsd, hse, hsf, hsg, hsh, hsi, hsj, by rw [hl, hsk, hr]⟩

theorem stThresh_decomp {v l : List Char} {m : IfMatch} {rem : List Char}
    (h : stThresh v l = some (m, rem)) :
    m.vari = v ∧
    ∃ sa sb sc sd se sf sg sh si sj sk, spaceList sa ∧ spaceList sb ∧ spaceList sc ∧
      spaceList sd ∧ spaceList se ∧ spaceList sf ∧ spaceList sg ∧ spaceList sh ∧
      spaceList si ∧ spaceList sj ∧ spaceList sk ∧
      l = sa ++ (m.thresh ++ (sb ++ ')' :: (sc ++ (m.target ++ (sd ++ '=' ::
        (se ++ (m.trueVal ++ (sf ++ ';' :: (sg ++ 'e' :: 'l' :: 's' :: 'e' ::
        (sh ++ (m.target ++ (si ++ '=' ::
        (sj ++ (m.falseVal ++ (sk ++ ';' :: rem))))))))))))))) := by
  unfold stThresh at h
  cases hc : takeClass isNumChar (skipSpaces l) with
  | none => rw [hc] at h; exact absurd h (by simp)
  | some pr =>
    obtain ⟨K, r⟩ := pr
    rw [hc] at h
    obtain ⟨_, _, heq, _⟩ := takeClass_some hc
    obtain ⟨sa, hsa, hl⟩ := skipSpaces_decomp l
    obtain ⟨hargs, sb, sc, sd, se, sf, sg, sh, si, sj, sk,
      hsb, hsc, hsd, hse, hsf, hsg, hsh, hsi, hsj, hsk, hr⟩ := stRParen_decomp h
    rw [← hargs.2] at heq
    exact ⟨hargs.1, sa, sb, sc, sd, se, sf, sg, sh, si, sj, sk,
      hsa, hsb, hsc, hsd, hse, hsf, hsg, hsh, hsi, hsj, hsk, by rw [hl, heq, hr]⟩

theorem stGt_decomp {v l : List Char} {m : IfMatch} {rem : List Char}
    (h : stGt v l = some (m, rem)) :
    m.vari = v ∧
    ∃ sa sb sc sd se sf sg sh si sj sk sl, spaceList sa ∧ spaceList sb ∧ spaceList sc ∧
      spaceList sd ∧ spaceList se ∧ spaceList sf ∧ spaceList sg ∧ spaceList sh ∧
      spaceList si ∧ spaceList sj ∧ spaceList sk ∧ spaceList sl ∧
      l = sa ++ '>' :: (sb ++ (m.thresh ++ (sc ++ ')' :: (sd ++ (m.target ++
        (se ++ '=' :: (sf ++ (m.trueVal ++ (sg ++ ';' ::
        (sh ++ 'e' :: 'l' :: 's' :: 'e' :: (si ++ (m.target ++ (sj ++ '=' ::
        (sk ++ (m.falseVal ++ (sl ++ ';' :: rem)))))))))))))))) := by
  unfold stGt at h
  cases he : expectChar '>' (skipSpaces l) with
  | none => rw [he] at h; exact absurd h (by simp)
  | some r =>
    rw [he] at h
    obtain ⟨sa, hsa, hl⟩ := skipSpaces_decomp l
    have hee := expectChar_decomp he
    obtain ⟨hargs, sb, sc, sd, se, sf, sg, sh, si, sj, sk, sl,
      hsb, hsc, hsd, hse, hsf, hsg, hsh, hsi, hsj, hsk, hsl, hr⟩ := stThresh_decomp h
    exact ⟨hargs, sa, sb, sc, sd, se, sf, sg, sh, si, sj, sk, sl,
      hsa, hsb, hsc, hsd, hse, hsf, hsg, hsh, hsi, hsj, hsk, hsl, by rw [hl, hee, hr]⟩

theorem stVar_decomp {l : List Char} {m : IfMatch} {rem : List Char}
    (h : stVar l = some (m, rem)) :
    ∃ sa sb sc sd se sf sg sh si sj sk sl sm, spaceList sa ∧ spaceList sb ∧
      spaceList sc ∧ spaceList sd ∧ spaceList se ∧ spaceList sf ∧ spaceList sg ∧
      spaceList sh ∧ spaceList si ∧ spaceList sj ∧ spaceList sk ∧ spaceList sl ∧
      spaceList sm ∧
      l = sa ++ (m.vari ++ (sb ++ '>' :: (sc ++ (m.thresh ++ (sd ++ ')' ::
        (se ++ (m.target ++ (sf ++ '=' :: (sg ++ (m.trueVal ++ (sh ++ ';' ::
        (si ++ 'e' :: 'l' :: 's' :: 'e' :: (sj ++ (m.target ++ (sk ++ '=' ::
        (sl ++ (m.falseVal ++ (sm ++ ';' :: rem)))))))))))))))))) := by
  unfold stVar at h
  cases hc : takeClass isWordChar (skipSpaces l) with
  | none => rw [hc] at h; exact absurd h (by simp)
  | some pr =>
    obtain ⟨V, r⟩ := pr
    rw [hc] at h
    obtain ⟨_, _, heq, _⟩ := takeClass_some hc
    obtain ⟨sa, hsa, hl⟩ := skipSpaces_decomp l
    obtain ⟨hargs, sb, sc, sd, se, sf, sg, sh, si, sj, sk, sl, sm,
      hsb, hsc, hsd, hse, hsf, hsg, hsh, hsi, hsj, hsk, hsl, hsm, hr⟩ := stGt_decomp h
    rw [← hargs] at heq
    exact ⟨sa, sb, sc, sd, se, sf, sg, sh, si, sj, sk, sl, sm,
      hsa, hsb, hsc, hsd, hse, hsf, hsg, hsh, hsi, hsj, hsk, hsl, hsm,
      by rw [hl, heq, hr]⟩

theorem stLParen_decomp {l : List Char} {m : IfMatch} {rem : List Char}
    (h : stLParen l = some (m, rem)) :
    ∃ sa sb sc sd se sf sg sh si sj sk sl sm sn, spaceList sa ∧ spaceList sb ∧
      spaceList sc ∧ spaceList sd ∧ spaceList se ∧ spaceList sf ∧ spaceList sg ∧
      spaceList sh ∧ spaceList si ∧ spaceList sj ∧ spaceList sk ∧ spaceList sl ∧
      spaceList sm ∧ spaceList sn ∧
      l = sa ++ '(' :: (sb ++ (m.vari ++ (sc ++ '>' :: (sd ++ (m.thresh ++
        (se ++ ')' :: (sf ++ (m.target ++ (sg ++ '=' :: (sh ++ (m.trueVal ++
        (si ++ ';' :: (sj ++ 'e' :: 'l' :: 's' :: 'e' :: (sk ++ (m.target ++
        (sl ++ '=' :: (sm ++ (m.falseVal ++ (sn ++ ';' :: rem))))))))))))))))))) := by
  unfold stLParen at h
  cases he : expectChar '(' (skipSpaces l) with
  | none => rw [he] at h; exact absurd h (by simp)
  | some r =>
    rw [he] at h
    obtain ⟨sa, hsa, hl⟩ := skipSpaces_decomp l
    have hee := expectChar_decomp he
    obtain ⟨sb, sc, sd, se, sf, sg, sh, si, sj, sk, sl, sm, sn,
      hsb, hsc, hsd, hse, hsf, hsg, hsh, hsi, hsj, hsk, hsl, hsm, hsn, hr⟩ :=
      stVar_decomp h
    exact ⟨sa, sb, sc, sd, se, sf, sg, sh, si, sj, sk, sl, sm, sn,
      hsa, hsb, hsc, hsd, hse, hsf, hsg, hsh, hsi, hsj, hsk, hsl, hsm, hsn,
      by rw [hl, hee, hr]⟩

theorem matchAt_decomp {l : List Char} {m : IfMatch} {rem : List Char}
    (h : matchAt l = some (m, rem)) :
    ∃ sa sb sc sd se sf sg sh si sj sk sl sm sn, spaceList sa ∧ spaceList sb ∧
      spaceList sc ∧ spaceList sd ∧ spaceList se ∧ spaceList sf ∧ spaceList sg ∧
      spaceList sh ∧ spaceList si ∧ spaceList sj ∧ spaceList sk ∧ spaceList sl ∧
      spaceList sm ∧ spaceList sn ∧
      l = 'i' :: 'f' :: (sa ++ '(' :: (sb ++ (m.vari ++ (sc ++ '>' :: (sd ++ (m.thresh ++
        (se ++ ')' :: (sf ++ (m.target ++ (sg ++ '=' :: (sh ++ (m.trueVal ++
        (si ++ ';' :: (sj ++ 'e' :: 'l' :: 's' :: 'e' :: (sk ++ (m.target ++
        (sl ++ '=' :: (sm ++ (m.falseVal ++ (sn ++ ';' :: rem)))))))))))))))))))) := by
  cases l with
  | nil => rw [matchAt_nil] at h; exact absurd h (by simp)
  | cons c l' =>
    by_cases hc : c = 'i'
    · subst hc
      rw [matchAt_i] at h
      cases l' with
      | nil => rw [stF_nil] at h; exact absurd h (by simp)
      | cons d l'' =>
        by_cases hd : d = 'f'
        · subst hd
          rw [stF_f] at h
          obtain ⟨sa, sb, sc, sd, se, sf, sg, sh, si, sj, sk, sl, sm, sn,
            hsa, hsb, hsc, hsd, hse, hsf, hsg, hsh, hsi, hsj, hsk, hsl, hsm, hsn, hr⟩ :=
            stLParen_decomp h
          exact ⟨sa, sb, sc, sd, se, sf, sg, sh, si, sj, sk, sl, sm, sn,
            hsa, hsb, hsc, hsd, hse, hsf, hsg, hsh, hsi, hsj, hsk, hsl, hsm, hsn,
            by rw [hr]⟩
        · rw [stF_cons_ne _ hd] at h
          exact absurd h (by simp)
    · rw [matchAt_cons_ne _ hc] at h
      exact absurd h (by simp)

/-- No `precision\s+(highp|mediump)` match can start strictly inside the text
consumed by a conditional-pattern match. -/
theorem matchAt_noQual {l : List Char} {m : IfMatch} {rem : List Char}
    (hm : matchAt l = some (m, rem)) {qual : List Char} {q0 : Char} {qt : List Char}
    (hq : qual = q0 :: qt) (hgt : q0 ≠ '>') (heq2 : q0 ≠ '=')
    {y : List Char} (hsuf : y <:+ l) (hylen : rem.length < y.length) :
    litSpacesLitAt "precision".data qual y = false := by
  obtain ⟨hvne, hvw, hkne, hkn, htne, htw, htvne, htvn, hfvne, hfvn⟩ := matchAt_caps hm
  obtain ⟨sa, sb, sc, sd, se, sf, sg, sh, si, sj, sk, sl, sm, sn,
    hsa, hsb, hsc, hsd, hse, hsf, hsg, hsh, hsi, hsj, hsk, hsl, hsm, hsn, hl⟩ :=
    matchAt_decomp hm
  have hspace : ∀ sp : List Char, spaceList sp → ∀ ya : List Char, ya ≠ [] → ya <:+ sp →
      ∀ R : List Char, litSpacesLitAt "precision".data qual (ya ++ R) = false := by
    intro sp hsp ya hne hs R
    obtain ⟨a0, ya', rfl⟩ := List.exists_cons_of_ne_nil hne
    rw [List.cons_append]
    exact LSL_head_ne (space_ne_p (hsp a0 (hs.subset (by simp)))) _
  have hnum : ∀ N : List Char, numList N → ∀ ya : List Char, ya ≠ [] → ya <:+ N →
      ∀ R : List Char, litSpacesLitAt "precision".data qual (ya ++ R) = false := by
    intro N hN ya hne hs R
    obtain ⟨a0, ya', rfl⟩ := List.exists_cons_of_ne_nil hne
    rw [List.cons_append]
    exact LSL_head_ne (num_ne_p (hN a0 (hs.subset (by simp)))) _
  subst hl
  rcases List.suffix_cons_iff.mp hsuf with rfl | hsuf
  · exact LSL_head_ne (by decide) _
  rcases List.suffix_cons_iff.mp hsuf with rfl | hsuf
  · exact LSL_head_ne (by decide) _
  rcases suffix_append_split hsuf with hsuf | ⟨ya, hyane, hyasuf, rfl⟩
  swap
  · exact hspace _ hsa ya hyane hyasuf _
  rcases List.suffix_cons_iff.mp hsuf with rfl | hsuf
  · exact LSL_head_ne (by decide) _
  rcases suffix_append_split hsuf with hsuf | ⟨ya, hyane, hyasuf, rfl⟩
  swap
  · exact hspace _ hsb ya hyane hyasuf _
  rcases suffix_append_split hsuf with hsuf | ⟨ya, hyane, hyasuf, rfl⟩
  swap
  · exact LSL_fail_word_then_sym hvw hyasuf hsc (by decide) (by decide) hq hgt _
  rcases suffix_append_split hsuf with hsuf | ⟨ya, hyane, hyasuf, rfl⟩
  swap
  · exact hspace _ hsc ya hyane hyasuf _
  rcases List.suffix_cons_iff.mp hsuf with rfl | hsuf
  · exact LSL_head_ne (by decide) _
  rcases suffix_append_split hsuf with hsuf | ⟨ya, hyane, hyasuf, rfl⟩
  swap
  · exact hspace _ hsd ya hyane hyasuf _
  rcases suffix_append_split hsuf with hsuf | ⟨ya, hyane, hyasuf, rfl⟩
  swap
  · exact hnum _ hkn ya hyane hyasuf _
  rcases suffix_append_split hsuf with hsuf | ⟨ya, hyane, hyasuf, rfl⟩
  swap
  · exact hspace _ hse ya hyane hyasuf _
  rcases List.suffix_cons_iff.mp hsuf with rfl | hsuf
  · exact LSL_head_ne (by decide) _
  rcases suffix_append_split hsuf with hsuf | ⟨ya, hyane, hyasuf, rfl⟩
  swap
  · exact hspace _ hsf ya hyane hyasuf _
  rcases suffix_append_split hsuf with hsuf | ⟨ya, hyane, hyasuf, rfl⟩
  swap
  · exact LSL_fail_word_then_sym htw hyasuf hsg (by decide) (by decide) hq heq2 _
  rcases suffix_append_split hsuf with hsuf | ⟨ya, hyane, hyasuf, rfl⟩
  swap
  · exact hspace _ hsg ya hyane hyasuf _
  rcases List.suffix_cons_iff.mp hsuf with rfl | hsuf
  · exact LSL_head_ne (by decide) _
  rcases suffix_append_split hsuf with hsuf | ⟨ya, hyane, hyasuf, rfl⟩
  swap
  · exact hspace _ hsh ya hyane hyasuf _
  rcases suffix_append_split hsuf with hsuf | ⟨ya, hyane, hyasuf, rfl⟩
  swap
  · exact hnum _ htvn ya hyane hyasuf _
  rcases suffix_append_split hsuf with hsuf | ⟨ya, hyane, hyasuf, rfl⟩
  swap
  · exact hspace _ hsi ya hyane hyasuf _
  rcases List.suffix_cons_iff.mp hsuf with rfl | hsuf
  · exact LSL_head_ne (by decide) _
  rcases suffix_append_split hsuf with hsuf | ⟨ya, hyane, hyasuf, rfl⟩
  swap
  · exact hspace _ hsj ya hyane hyasuf _
  rcases List.suffix_cons_iff.mp hsuf with rfl | hsuf
  · exact LSL_head_ne (by decide) _
  rcases List.suffix_cons_iff.mp hsuf with rfl | hsuf
  · exact LSL_head_ne (by decide) _
  rcases List.suffix_cons_iff.mp hsuf with rfl | hsuf
  · exact LSL_head_ne (by decide) _
  rcases List.suffix_cons_iff.mp hsuf with rfl | hsuf
  · exact LSL_head_ne (by decide) _
  rcases suffix_append_split hsuf with hsuf | ⟨ya, hyane, hyasuf, rfl⟩
  swap
  · exact hspace _ hsk ya hyane hyasuf _
  rcases suffix_append_split hsuf with hsuf | ⟨ya, hyane, hyasuf, rfl⟩
  swap
  · exact LSL_fail_word_then_sym htw hyasuf hsl (by decide) (by decide) hq heq2 _
  rcases suffix_append_split hsuf with hsuf | ⟨ya, hyane, hyasuf, rfl⟩
  swap
  · exact hspace _ hsl ya hyane hyasuf _
  rcases List.suffix_cons_iff.mp hsuf with rfl | hsuf
  · exact LSL_head_ne (by decide) _
  rcases suffix_append_split hsuf with hsuf | ⟨ya, hyane, hyasuf, rfl⟩
  swap
  · exact hspace _ hsm ya hyane hyasuf _
  rcases suffix_append_split hsuf with hsuf | ⟨ya, hyane, hyasuf, rfl⟩
  swap
  · exact hnum _ hfvn ya hyane hyasuf _
  rcases suffix_append_split hsuf with hsuf | ⟨ya, hyane, hyasuf, rfl⟩
  swap
  · exact hspace _ hsn ya hyane hyasuf _
  rcases List.suffix_cons_iff.mp hsuf with rfl | hsuf
  · exact LSL_head_ne (by decide) _
  exact absurd (List.IsSuffix.length_le hsuf) (not_le.mpr hylen)

theorem matchAt_rem_suffix {l : List Char} {m : IfMatch} {rem : List Char}
    (h : matchAt l = some (m, rem)) : rem <:+ l := by
  cases l with
  | nil => rw [matchAt_nil] at h; exact absurd h (by simp)
  | cons c l' =>
    by_cases hc : c = 'i'
    · subst hc
      rw [matchAt_i] at h
      cases l' with
      | nil => rw [stF_nil] at h; exact absurd h (by simp)
      | cons d l'' =>
        by_cases hd : d = 'f'
        · subst hd
          rw [stF_f] at h
          exact ((stLParen_rem h).trans (List.suffix_cons 'f' l'')).trans
            (List.suffix_cons 'i' ('f' :: l''))
        · rw [stF_cons_ne _ hd] at h
          exact absurd h (by simp)
    · rw [matchAt_cons_ne _ hc] at h
      exact absurd h (by simp)

/-- A `precision\s+qual` occurrence survives the global conditional rewrite. -/
theorem preserveLSL : ∀ n : Nat, ∀ l : List Char, l.length ≤ n →
    ∀ qual : List Char, ∀ q0 : Char, ∀ qt : List Char, qual = q0 :: qt →
    isSpaceChar q0 = false → q0 ≠ '>' → q0 ≠ '=' → noIfStart qual = true →
    containsLSL "precision".data qual l = true →
    containsLSL "precision".data qual (replaceAll l) = true := by
  intro n
  induction n with
  | zero =>
    intro l hl qual q0 qt hq hq0 hgt heq2 hnoif h
    have hnil : l = [] := List.length_eq_zero.mp (Nat.le_zero.mp hl)
    subst hnil
    exact h
  | succ n ih =>
    intro l hl qual q0 qt hq hq0 hgt heq2 hnoif h
    cases l with
    | nil => exact h
    | cons c l' =>
      have hlen : l'.length ≤ n := by
        simp only [List.length_cons] at hl
        omega
      by_cases hhead : litSpacesLitAt "precision".data qual (c :: l') = true
      · obtain ⟨s0, sp1, rest, hspl, hshape⟩ := LSL_decomp hhead
        have hsafe : ∀ z, z ≠ [] → z <:+ ("precision".data ++ ((s0 :: sp1) ++ qual)) →
            ∀ t, matchAt (z ++ t) = none := by
          intro z hz hzs t
          rcases suffix_append_split hzs with h1 | ⟨za, hzane, hzasuf, rfl⟩
          · rcases suffix_append_split h1 with h2 | ⟨zb, hzbne, hzbsuf, rfl⟩
            · exact noIfStart_safe qual hnoif z hz h2 t
            · obtain ⟨b0, zb', rfl⟩ := List.exists_cons_of_ne_nil hzbne
              simp only [List.cons_append, List.append_assoc]
              exact matchAt_cons_ne _ (space_ne_i (hspl b0 (hzbsuf.subset (by simp))))
          · rw [List.append_assoc]
            exact noIfStart_safe "precision".data (by decide) za hzane hzasuf _
        have hassoc : "precision".data ++ ((s0 :: sp1) ++ (qual ++ rest)) =
            ("precision".data ++ ((s0 :: sp1) ++ qual)) ++ rest := by
          simp only [List.append_assoc]
        have hrw : replaceAll (c :: l') =
            ("precision".data ++ ((s0 :: sp1) ++ qual)) ++ replaceAll rest := by
          rw [hshape, hassoc, replaceAll_append_safe _ _ hsafe]
        rw [hrw]
        apply containsLSL_head
        rw [show ("precision".data ++ ((s0 :: sp1) ++ qual)) ++ replaceAll rest =
          "precision".data ++ ((s0 :: sp1) ++ (qual ++ replaceAll rest)) by
            simp only [List.append_assoc]]
        exact LSL_build hq hq0 hspl _
      · have htail : containsLSL "precision".data qual l' = true := by
          rw [containsLSL, Bool.or_eq_true] at h
          rcases h with h | h
          · exact absurd h hhead
          · exact h
        cases hmm : matchAt (c :: l') with
        | none =>
          rw [replaceAll_cons_none hmm]
          exact containsLSL_tail c (ih l' hlen qual q0 qt hq hq0 hgt heq2 hnoif htail)
        | some pr =>
          obtain ⟨m, rem⟩ := pr
          rw [replaceAll_cons_match hmm]
          obtain ⟨y, hysuf, hyl⟩ := containsLSL_witness htail
          have hysuf2 : y <:+ c :: l' := hysuf.trans (List.suffix_cons c l')
          by_cases hylen : y.length ≤ rem.length
          · have hrs : rem <:+ c :: l' := matchAt_rem_suffix hmm
            have hyrem : y <:+ rem := suffix_of_suffix_length_le hysuf2 hrs hylen
            have hcr : containsLSL "precision".data qual rem = true :=
              witness_containsLSL hyrem hyl
            have hremlen : rem.length ≤ n := by
              have hlt := matchAt_rem_length hmm
              simp only [List.length_cons] at hlt hl
              omega
            exact containsLSL_append_right _
              (ih rem hremlen qual q0 qt hq hq0 hgt heq2 hnoif hcr)
          · push_neg at hylen
            have hfy : litSpacesLitAt "precision".data qual y = false :=
              matchAt_noQual hmm hq hgt heq2 hysuf2 hylen
            rw [hfy] at hyl
            exact absurd hyl (by simp)

/-- `hasPrecisionQual` is preserved by the global conditional rewrite. -/
theorem hasPrecisionQual_replaceAll {l : List Char}
    (h : hasPrecisionQual l = true) : hasPrecisionQual (replaceAll l) = true := by
  unfold hasPrecisionQual hasHighp hasMediump at h ⊢
  rw [Bool.or_eq_true] at h ⊢
  rcases h with h | h
  · exact Or.inl (preserveLSL l.length l le_rfl "highp".data 'h' "ighp".data rfl
      (by decide) (by decide) (by decide) (by decide) h)
  · exact Or.inr (preserveLSL l.length l le_rfl "mediump".data 'm' "ediump".data rfl
      (by decide) (by decide) (by decide) (by decide) h)

theorem hasPrecisionQual_header (kind : ShaderKind) (X : List Char) :
    hasPrecisionQual (precisionHeader kind ++ X) = true := by
  have hsp : spaceList (' ' :: []) := by
    intro x hx
    rcases List.mem_cons.mp hx with rfl | hx
    · decide
    · exact absurd hx (List.not_mem_nil x)
  cases kind with
  | vertex =>
    unfold hasPrecisionQual hasHighp
    rw [Bool.or_eq_true]
    refine Or.inl (containsLSL_head ?_)
    exact LSL_build (rfl : "highp".data = 'h' :: "ighp".data) (by decide) hsp
      (" float;\n\n".data ++ X)
  | fragment =>
    unfold hasPrecisionQual hasMediump
    rw [Bool.or_eq_true]
    refine Or.inr (containsLSL_head ?_)
    exact LSL_build (rfl : "mediump".data = 'm' :: "ediump".data) (by decide) hsp
      (" float;\n\n".data ++ X)

theorem replaceAll_header (kind : ShaderKind) (X : List Char) :
    replaceAll (precisionHeader kind ++ X) = precisionHeader kind ++ replaceAll X :=
  replaceAll_append_safe _ _ (fun y hy hs t =>
    noIfStart_safe _ (precisionHeader_noIfStart kind) y hy hs t)

/-- C5.  `optimizeShader` is idempotent: a second application returns the first
application's output unchanged, for every shader source and kind.  In
particular, on a fragment source with no precision qualifier both the single
and the double application produce exactly the one prepended
`precision mediump float;` declaration in front of the rewritten source — the
qualifier is never duplicated. -/
theorem optimizeShader_idempotent :
    (∀ s : List Char, ∀ kind : ShaderKind,
      optimizeShader (optimizeShader s kind) kind = optimizeShader s kind) ∧
    (∀ s : List Char, hasPrecisionQual s = false →
      optimizeShader s ShaderKind.fragment =
        "precision mediump float;\n\n".data ++ replaceAll s ∧
      optimizeShader (optimizeShader s ShaderKind.fragment) ShaderKind.fragment =
        "precision mediump float;\n\n".data ++ replaceAll s) := by
  have honce : ∀ s : List Char, ∀ kind : ShaderKind, hasPrecisionQual s = false →
      optimizeShader s kind = precisionHeader kind ++ replaceAll s := by
    intro s kind hq
    unfold optimizeShader
    rw [if_neg (by simp [hq]), replaceAll_header]
  have hidem : ∀ s : List Char, ∀ kind : ShaderKind,
      optimizeShader (optimizeShader s kind) kind = optimizeShader s kind := by
    intro s kind
    cases hq : hasPrecisionQual s with
    | true =>
      have h1 : optimizeShader s kind = replaceAll s := by
        unfold optimizeShader
        rw [if_pos (by simp [hq])]
      rw [h1]
      have hq2 : hasPrecisionQual (replaceAll s) = true := hasPrecisionQual_replaceAll hq
      unfold optimizeShader
      rw [if_pos (by simp [hq2])]
      exact replaceAll_idem s
    | false =>
      rw [honce s kind hq]
      have hq2 : hasPrecisionQual (precisionHeader kind ++ replaceAll s) = true :=
        hasPrecisionQual_header kind (replaceAll s)
      unfold optimizeShader
      rw [if_pos (by simp [hq2]), replaceAll_header, replaceAll_idem s]
  refine ⟨hidem, ?_⟩
  intro s hq
  have h1 : optimizeShader s ShaderKind.fragment =
      "precision mediump float;\n\n".data ++ replaceAll s := honce s ShaderKind.fragment hq
  exact ⟨h1, by rw [hidem s ShaderKind.fragment, h1]⟩

theorem optimizeShader_idempotent_witness :
    hasPrecisionQual "if (x > 0.7) a = 2.0; else a = 3.0;".data = false ∧
    optimizeShader (optimizeShader "if (x > 0.7) a = 2.0; else a = 3.0;".data
        ShaderKind.fragment) ShaderKind.fragment =
      optimizeShader "if (x > 0.7) a = 2.0; else a = 3.0;".data ShaderKind.fragment ∧
    optimizeShader "if (x > 0.7) a = 2.0; else a = 3.0;".data ShaderKind.fragment =
      "precision mediump float;\n\n".data ++
        replaceAll "if (x > 0.7) a = 2.0; else a = 3.0;".data :=
  ⟨by decide, optimizeShader_idempotent.1 _ ShaderKind.fragment,
    (optimizeShader_idempotent.2 _ (by decide)).1⟩
